import Mathlib

/-!
# lazy-open-commity: a verification development of `main.go`

The program is one linear pipeline:
staged-change gate, prompt assembly, agent call, JSON decoding,
interactive selection, `git commit`.

Modelling decisions.
* A Go `string` is modelled as a Lean `String`, a sequence of Unicode
  code points, wherever the program handles text.  The output of a
  subprocess is bytes and need not be UTF-8; where that matters, for the
  decoding of the agent's answer, the run is given a second time over byte
  sequences (namespace `Raw`, with `UnmarshalBytes`).
* Everything outside the process (the subprocesses and the terminal menu)
  is a `World`: a deterministic oracle whose answers may depend on the whole
  history of the run.  The run itself is explicit state passing over a trace
  of `Event`s, and `os.Exit` is a result that short-circuits the rest.
* Library functions (`fmt.Sprintf`, `strings.ToLower`, `strings.Contains`,
  `json.Unmarshal`) are modelled by executable definitions that follow the
  documented behaviour of the Go standard library.
-/

namespace LazyCommit

/-! ## Data model -/

/-- The Go struct `CommitMessage` with its two string fields. -/
structure CommitMessage where
  Title : String
  Description : String
  deriving DecidableEq, Repr

/-- The Go type `AIModel`, a named string type. -/
abbrev AIModel := String

/-- First model constant of the source. -/
def gpt41 : AIModel := "github-copilot/gpt-4.1"

/-- Second model constant of the source, the one `main` passes. -/
def gpt4o : AIModel := "github-copilot/gpt-4o"

/-- The constant `topCommitMessageCount`. -/
def topCommitMessageCount : Int := 5

/-- The constant `promptTemplate`, character for character. -/
def promptTemplate : String :=
  "You are a helpful commit message generator.\n" ++
  "Generate me an array of the top %d commit message recommendations in json format.\n" ++
  "Only one commit is picked from the returned commit message list.\n" ++
  "Only answer with the json! Nothing else! No markdown!\n" ++
  "\n" ++
  "# Rules for writing commit messages:\n" ++
  "- Use the conventional commit specification.\n" ++
  "- Capitalized, short (50 chars or less) summary (title)\n" ++
  "- More detailed description, if necessary. Bullet points can be used, too. Typically a hyphen or asterisk is used for the bullet, preceded by a single space, with blank lines in between\n" ++
  "- What was the motivation for the change?\n" ++
  "- How does it differ from the previous implementation?\n" ++
  "- You MUST insert newlines in the description to ensure a maximum of 72 characters per line.\n" ++
  "- Write your commit message in the imperative: \"Fix bug\" and not \"Fixed bug\" or \"Fixes bug.\" \n" ++
  "\n" ++
  "# Example output format:\n" ++
  "Here is an example of the output format:\n" ++
  "[\n" ++
  "\t\x7b\n" ++
  "\t\t\"title\": \"feat: add user authentication flow\",\n" ++
  "\t\t\"description\": \"Implement login, registration, and JWT-based session management for secure user access.\"\n" ++
  "\t\x7d\n" ++
  "]\n" ++
  "\n"

/-! ## `fmt.Sprintf` restricted to integer operands -/

/-- Decimal digits of a natural number, most significant first, with `fuel`
bounding the number of digits. -/
def decimalDigits : Nat → Nat → List Char
  | 0, _ => []
  | fuel + 1, n =>
    if n < 10 then [Char.ofNat (48 + n)]
    else decimalDigits fuel (n / 10) ++ [Char.ofNat (48 + n % 10)]

/-- The text `%d` produces for an integer. -/
def formatInt (i : Int) : List Char :=
  match i with
  | Int.ofNat n => decimalDigits (n + 1) n
  | Int.negSucc n => '-' :: decimalDigits (n + 2) (n + 1)

/-- What `Sprintf` appends for operands no directive consumed. -/
def extraOperands : List Int → List Char
  | [] => []
  | [a] => "int=".data ++ formatInt a
  | a :: rest => "int=".data ++ formatInt a ++ ", ".data ++ extraOperands rest

/-- The formatting loop of `fmt.Sprintf` for a format whose directives are plain
`%d`, `%v` and `%%` (no flags, width or precision) and whose operands are
integers.  A directive with no operand left prints `%!d(MISSING)`, a trailing
`%` prints `%!(NOVERB)`, operands left over are reported in `%!(EXTRA ...)`.
Any other verb is outside this model and is printed as a bad verb. -/
def sprintfLoop : List Char → List Int → List Char
  | [], [] => []
  | [], a :: rest => "%!(EXTRA ".data ++ extraOperands (a :: rest) ++ [')']
  | ['%'], args => "%!(NOVERB)".data ++ sprintfLoop [] args
  | '%' :: '%' :: fmt, args => '%' :: sprintfLoop fmt args
  | '%' :: v :: fmt, [] => "%!".data ++ [v] ++ "(MISSING)".data ++ sprintfLoop fmt []
  | '%' :: v :: fmt, a :: rest =>
    if v = 'd' ∨ v = 'v' then formatInt a ++ sprintfLoop fmt rest
    else "%!".data ++ [v] ++ "(int=".data ++ formatInt a ++ [')'] ++ sprintfLoop fmt rest
  | c :: fmt, args => c :: sprintfLoop fmt args

/-- The library call `fmt.Sprintf(format, args...)` for integer operands. -/
def Sprintf (format : String) (args : List Int) : String :=
  ⟨sprintfLoop format.data args⟩

/-! ## `strings.ToLower`, `strings.ToUpper`, `strings.Contains` -/

/-- One entry of the table `unicode.CaseRanges`: the code points `Lo..Hi` and
the deltas to add to reach the upper, lower and title case forms. -/
structure CaseRange where
  Lo : Nat
  Hi : Nat
  Delta : Int × Int × Int
  deriving DecidableEq, Repr

/-- The constant `unicode.MaxRune`.  A delta above it (`unicode.UpperLower`)
marks an alternating upper/lower sequence. -/
def MaxRune : Int := 0x10FFFF

/-- The case selectors of the `unicode` package. -/
def UpperCase : Nat := 0

/-- The selector for lower case. -/
def LowerCase : Nat := 1

/-- The delta of a range for a case selector. -/
def CaseRange.delta (cr : CaseRange) (case : Nat) : Int :=
  if case = 0 then cr.Delta.1 else if case = 1 then cr.Delta.2.1 else cr.Delta.2.2

/-- The function `unicode.to`: the first range containing `r` decides; inside an
alternating sequence the low bit of the offset is set or cleared. -/
def unicodeTo (case : Nat) (r : Nat) : List CaseRange → Nat
  | [] => r
  | cr :: rest =>
    if cr.Lo ≤ r ∧ r ≤ cr.Hi then
      if cr.delta case > MaxRune then cr.Lo + ((r - cr.Lo) / 2 * 2 + case % 2)
      else (Int.ofNat r + cr.delta case).toNat
    else unicodeTo case r rest

/-- The function `unicode.ToLower`: ASCII is handled directly, everything else
through the case table. -/
def unicodeToLower (tbl : List CaseRange) (r : Char) : Char :=
  if r.toNat ≤ 0x7F then
    if 'A'.toNat ≤ r.toNat ∧ r.toNat ≤ 'Z'.toNat then Char.ofNat (r.toNat + 32) else r
  else Char.ofNat (unicodeTo LowerCase r.toNat tbl)

/-- The function `unicode.ToUpper`. -/
def unicodeToUpper (tbl : List CaseRange) (r : Char) : Char :=
  if r.toNat ≤ 0x7F then
    if 'a'.toNat ≤ r.toNat ∧ r.toNat ≤ 'z'.toNat then Char.ofNat (r.toNat - 32) else r
  else Char.ofNat (unicodeTo UpperCase r.toNat tbl)

/-- The function `strings.ToLower`: every code point is mapped by
`unicode.ToLower` (the ASCII fast path of the library computes the same). -/
def ToLower (tbl : List CaseRange) (s : String) : String :=
  ⟨s.data.map (unicodeToLower tbl)⟩

/-- The function `strings.ToUpper`. -/
def ToUpper (tbl : List CaseRange) (s : String) : String :=
  ⟨s.data.map (unicodeToUpper tbl)⟩

/-- Whether the text begins with the given characters (`strings.HasPrefix`). -/
def startsWith : List Char → List Char → Bool
  | _, [] => true
  | [], _ :: _ => false
  | c :: s, d :: sub => c = d && startsWith s sub

/-- Search for `sub` at every position of `s`. -/
def containsChars : List Char → List Char → Bool
  | [], sub => startsWith [] sub
  | c :: s, sub => startsWith (c :: s) sub || containsChars s sub

/-- The function `strings.Contains`. -/
def Contains (s substr : String) : Bool := containsChars s.data substr.data

/-! ## `json.Unmarshal` into `[]CommitMessage` -/

/-- A parsed JSON value.  Number texts are not kept: no field of the target
type is numeric. -/
inductive JValue where
  | null
  | bool (b : Bool)
  | number
  | str (s : List Char)
  | arr (items : List JValue)
  | obj (members : List (List Char × JValue))

/-- The two kinds of error `json.Unmarshal` returns here: `*json.SyntaxError`
from the validity scan and `*json.UnmarshalTypeError` from storing a value. -/
inductive JsonError where
  | syntaxError
  | unmarshalTypeError
  deriving DecidableEq, Repr

/-- JSON white space: space, tab, carriage return, line feed. -/
def isSpace (c : Char) : Bool := c = ' ' || c = '\t' || c = '\r' || c = '\n'

/-- Drop leading white space. -/
def skipSpace : List Char → List Char
  | [] => []
  | c :: cs => if isSpace c then skipSpace cs else c :: cs

/-- A decimal digit. -/
def isDigit (c : Char) : Bool := decide ('0'.toNat ≤ c.toNat ∧ c.toNat ≤ '9'.toNat)

/-- Drop leading digits. -/
def skipDigits : List Char → List Char
  | [] => []
  | c :: cs => if isDigit c then skipDigits cs else c :: cs

/-- Value of a hexadecimal digit. -/
def hexVal (c : Char) : Option Nat :=
  if '0'.toNat ≤ c.toNat ∧ c.toNat ≤ '9'.toNat then some (c.toNat - '0'.toNat)
  else if 'a'.toNat ≤ c.toNat ∧ c.toNat ≤ 'f'.toNat then some (c.toNat - 'a'.toNat + 10)
  else if 'A'.toNat ≤ c.toNat ∧ c.toNat ≤ 'F'.toNat then some (c.toNat - 'A'.toNat + 10)
  else none

/-- The function `getu4` on the four characters after `\u`. -/
def getu4 (a b c d : Char) : Option Nat :=
  match hexVal a, hexVal b, hexVal c, hexVal d with
  | some x, some y, some z, some w => some (x * 4096 + y * 256 + z * 16 + w)
  | _, _, _, _ => none

/-- The single-character escapes of a JSON string. -/
def simpleEscape (e : Char) : Option Char :=
  if e = '"' then some '"'
  else if e = '\\' then some '\\'
  else if e = '/' then some '/'
  else if e = 'b' then some (Char.ofNat 8)
  else if e = 'f' then some (Char.ofNat 12)
  else if e = 'n' then some '\n'
  else if e = 'r' then some '\r'
  else if e = 't' then some '\t'
  else none

/-- The replacement character U+FFFD. -/
def replacementChar : Char := Char.ofNat 0xFFFD

/-- Put a character in front of a decoded string body. -/
def consChar (c : Char) (r : Option (List Char × List Char)) : Option (List Char × List Char) :=
  match r with
  | none => none
  | some (s, rest) => some (c :: s, rest)

/-- Emit U+FFFD for a high surrogate escape that found no partner. -/
def flushPending (pending : Option Nat) (r : Option (List Char × List Char)) :
    Option (List Char × List Char) :=
  match pending with
  | none => r
  | some _ => consChar replacementChar r

/-- Scan a string literal after its opening quote and unquote it, as the
scanner and `unquote` do together: the result is the decoded text and the input
after the closing quote.  Control characters and unknown escapes are syntax
errors.  `pending` is a high surrogate read from the `\u` escape just before:
a low surrogate escape that follows at once is combined with it, and it becomes
U+FFFD when anything else follows (the library looks ahead instead, with the
same result). -/
def parseStringBody : Option Nat → List Char → Option (List Char × List Char)
  | _, [] => none
  | pending, c :: r =>
    if c = '"' then flushPending pending (some ([], r))
    else if c = '\\' then
      match r with
      | [] => none
      | e :: r1 =>
        if e = 'u' then
          match r1 with
          | h1 :: h2 :: h3 :: h4 :: r2 =>
            match getu4 h1 h2 h3 h4 with
            | none => none
            | some rr =>
              if 0xDC00 ≤ rr ∧ rr < 0xE000 then
                match pending with
                | some hi =>
                  consChar (Char.ofNat ((hi - 0xD800) * 1024 + (rr - 0xDC00) + 0x10000))
                    (parseStringBody none r2)
                | none => consChar replacementChar (parseStringBody none r2)
              else if 0xD800 ≤ rr ∧ rr < 0xDC00 then
                flushPending pending (parseStringBody (some rr) r2)
              else flushPending pending (consChar (Char.ofNat rr) (parseStringBody none r2))
          | _ => none
        else
          match simpleEscape e with
          | some ch => flushPending pending (consChar ch (parseStringBody none r1))
          | none => none
    else if c.toNat < 0x20 then none
    else flushPending pending (consChar c (parseStringBody none r))

/-- The exponent part of a number, if any. -/
def parseExp : List Char → Option (List Char)
  | [] => some []
  | c :: r =>
    if c = 'e' ∨ c = 'E' then
      match r with
      | [] => none
      | s :: r1 =>
        if s = '+' ∨ s = '-' then
          match r1 with
          | [] => none
          | d :: r2 => if isDigit d then some (skipDigits r2) else none
        else if isDigit s then some (skipDigits r1) else none
    else some (c :: r)

/-- The fraction part of a number, if any, then the exponent. -/
def parseFrac : List Char → Option (List Char)
  | [] => some []
  | c :: r =>
    if c = '.' then
      match r with
      | [] => none
      | d :: r1 => if isDigit d then parseExp (skipDigits r1) else none
    else parseExp (c :: r)

/-- The integer part of a number after the optional sign. -/
def parseInt : List Char → Option (List Char)
  | [] => none
  | c :: r =>
    if c = '0' then parseFrac r
    else if isDigit c then parseFrac (skipDigits r)
    else none

/-- Scan a number; the result is the input after it. -/
def parseNumber : List Char → Option (List Char)
  | [] => none
  | c :: r => if c = '-' then parseInt r else parseInt (c :: r)

/-- Drop the given literal characters from the front of the input. -/
def dropLit : List Char → List Char → Option (List Char)
  | [], cs => some cs
  | _ :: _, [] => none
  | l :: lit, c :: cs => if l = c then dropLit lit cs else none

/-- The constant `maxNestingDepth` of the scanner. -/
def maxNestingDepth : Nat := 10000

mutual
/-- Parse one value at the front of the input (which starts at its first
character).  `depth` is the number of enclosing arrays and objects. -/
def parseValue : Nat → Nat → List Char → Option (JValue × List Char)
  | 0, _, _ => none
  | _ + 1, _, [] => none
  | fuel + 1, depth, c :: r =>
    if c = '"' then
      match parseStringBody none r with
      | none => none
      | some (s, r1) => some (JValue.str s, r1)
    else if c = '[' then
      if depth ≥ maxNestingDepth then none
      else
        match skipSpace r with
        | [] => none
        | c1 :: r1 =>
          if c1 = ']' then some (JValue.arr [], r1)
          else
            match parseElements fuel (depth + 1) (c1 :: r1) with
            | none => none
            | some (vs, r2) => some (JValue.arr vs, r2)
    else if c = '\x7b' then
      if depth ≥ maxNestingDepth then none
      else
        match skipSpace r with
        | [] => none
        | c1 :: r1 =>
          if c1 = '\x7d' then some (JValue.obj [], r1)
          else
            match parseMembers fuel (depth + 1) (c1 :: r1) with
            | none => none
            | some (ms, r2) => some (JValue.obj ms, r2)
    else if c = 'n' then
      match dropLit ['u', 'l', 'l'] r with
      | none => none
      | some r1 => some (JValue.null, r1)
    else if c = 't' then
      match dropLit ['r', 'u', 'e'] r with
      | none => none
      | some r1 => some (JValue.bool true, r1)
    else if c = 'f' then
      match dropLit ['a', 'l', 's', 'e'] r with
      | none => none
      | some r1 => some (JValue.bool false, r1)
    else
      match parseNumber (c :: r) with
      | none => none
      | some r1 => some (JValue.number, r1)
/-- Parse the elements of a non-empty array up to and including `]`. -/
def parseElements : Nat → Nat → List Char → Option (List JValue × List Char)
  | 0, _, _ => none
  | fuel + 1, depth, cs =>
    match parseValue fuel depth cs with
    | none => none
    | some (v, r) =>
      match skipSpace r with
      | [] => none
      | c1 :: r1 =>
        if c1 = ',' then
          match parseElements fuel depth (skipSpace r1) with
          | none => none
          | some (vs, r2) => some (v :: vs, r2)
        else if c1 = ']' then some ([v], r1)
        else none
/-- Parse the members of a non-empty object up to and including the closing
brace. -/
def parseMembers : Nat → Nat → List Char → Option (List (List Char × JValue) × List Char)
  | 0, _, _ => none
  | _ + 1, _, [] => none
  | fuel + 1, depth, c :: r =>
    if c = '"' then
      match parseStringBody none r with
      | none => none
      | some (key, r1) =>
        match skipSpace r1 with
        | [] => none
        | c1 :: r2 =>
          if c1 = ':' then
            match parseValue fuel depth (skipSpace r2) with
            | none => none
            | some (v, r3) =>
              match skipSpace r3 with
              | [] => none
              | c2 :: r4 =>
                if c2 = ',' then
                  match parseMembers fuel depth (skipSpace r4) with
                  | none => none
                  | some (ms, r5) => some ((key, v) :: ms, r5)
                else if c2 = '\x7d' then some ([(key, v)], r4)
                else none
          else none
    else none
end

/-- Parse a whole JSON text: one value with white space around it and nothing
else.  The fuel is more than the number of nested calls any input of this
length can cause. -/
def parseJSON (data : List Char) : Option JValue :=
  match parseValue (2 * data.length + 2) 0 (skipSpace data) with
  | none => none
  | some (v, rest) => if skipSpace rest = [] then some v else none

/-- The function `foldName` of the decoder: ASCII letters are upper-cased, any
other code point goes to the least member of its simple-fold orbit, which is
the table-driven part and is a parameter here. -/
def foldName (foldRune : Char → Char) (name : List Char) : List Char :=
  name.map fun c =>
    if c.toNat < 0x80 then
      if 'a'.toNat ≤ c.toNat ∧ c.toNat ≤ 'z'.toNat then Char.ofNat (c.toNat - 32) else c
    else foldRune c

/-- Store a JSON value into a Go string: a string is stored, `null` leaves the
old value, anything else is a type error and leaves the old value. -/
def storeString (old : String) (v : JValue) : String × Bool :=
  match v with
  | JValue.str s => (⟨s⟩, false)
  | JValue.null => (old, false)
  | _ => (old, true)

/-- Decode the members of an object into a struct value, one after the other.
A key selects a field by its exact name, else by its folded name; a key that
matches no field is skipped.  The flag reports a type error. -/
def decodeMembers (foldRune : Char → Char) :
    List (List Char × JValue) → CommitMessage → CommitMessage × Bool
  | [], cm => (cm, false)
  | (key, v) :: rest, cm =>
    if key = "title".data ∨
        (key ≠ "description".data ∧ foldName foldRune key = foldName foldRune "title".data) then
      let (t, e) := storeString cm.Title v
      let (cm1, e1) := decodeMembers foldRune rest { cm with Title := t }
      (cm1, e || e1)
    else if key = "description".data ∨
        foldName foldRune key = foldName foldRune "description".data then
      let (t, e) := storeString cm.Description v
      let (cm1, e1) := decodeMembers foldRune rest { cm with Description := t }
      (cm1, e || e1)
    else decodeMembers foldRune rest cm

/-- Decode one array element into a fresh struct: an object fills it, `null`
leaves it zero, anything else is a type error. -/
def decodeElement (foldRune : Char → Char) (v : JValue) : CommitMessage × Bool :=
  match v with
  | JValue.obj ms => decodeMembers foldRune ms ⟨"", ""⟩
  | JValue.null => (⟨"", ""⟩, false)
  | _ => (⟨"", ""⟩, true)

/-- Decode a JSON value into the slice: an array gives its elements, `null`
gives the nil slice, anything else is a type error. -/
def decodeSlice (foldRune : Char → Char) (v : JValue) : List CommitMessage × Bool :=
  match v with
  | JValue.arr items =>
    ((items.map (decodeElement foldRune)).map Prod.fst,
      (items.map (decodeElement foldRune)).any Prod.snd)
  | JValue.null => ([], false)
  | _ => ([], true)

/-- The call `json.Unmarshal([]byte(data), &commitMessages)` on a nil slice,
for data that is UTF-8 text: the validity scan first, then the decoding.
`UnmarshalBytes` is the call on arbitrary bytes. -/
def Unmarshal (foldRune : Char → Char) (data : String) : Except JsonError (List CommitMessage) :=
  match parseJSON data.data with
  | none => Except.error JsonError.syntaxError
  | some v =>
    match decodeSlice foldRune v with
    | (_, true) => Except.error JsonError.unmarshalTypeError
    | (cms, false) => Except.ok cms

/-! ## The world outside the process, and runs -/

/-- An operand of `fmt.Println`: a string or an `error` value. -/
inductive Operand where
  | str (s : String)
  | err (e : String)
  | jsonErr (e : JsonError)
  deriving DecidableEq, Repr

/-- What a run does that is visible from outside, in order. -/
inductive Event where
  /-- A subprocess ran to completion: `exec.Command(name, args...).Output()`
  returned `(output, err)`. -/
  | exec (name : String) (args : List String) (output : String) (err : Option String)
  /-- A call `fmt.Println(operands...)`. -/
  | println (operands : List Operand)
  /-- The interactive menu ran over `items` and returned `(idx, err)`. -/
  | select (items : List CommitMessage) (idx : Nat) (err : Option String)
  deriving DecidableEq, Repr

/-- The environment of a run.  Each answer may depend on the history so far, so
two calls of the same command need not agree. -/
structure World where
  /-- Result of running a subprocess: captured standard output and error. -/
  run : List Event → String → List String → String × Option String
  /-- Result of `promptui.Select.Run` on the items: chosen index and error. -/
  selectRun : List Event → List CommitMessage → Nat × Option String

/-- How a computation ends: it returns a value, calls `os.Exit(code)`, or
panics (an index out of range). -/
inductive Res (α : Type) where
  | ret (a : α)
  | exit (code : Nat)
  | panic
  deriving DecidableEq, Repr

/-- A computation of the program: it reads the world, extends the trace. -/
def Prog (α : Type) : Type := World → List Event → Res α × List Event

/-- Sequencing; `os.Exit` and a panic skip everything that follows. -/
def Prog.bind {α β : Type} (m : Prog α) (f : α → Prog β) : Prog β :=
  fun w tr =>
    match m w tr with
    | (Res.ret a, tr1) => f a w tr1
    | (Res.exit c, tr1) => (Res.exit c, tr1)
    | (Res.panic, tr1) => (Res.panic, tr1)

instance : Monad Prog where
  pure a := fun _ tr => (Res.ret a, tr)
  bind := Prog.bind

/-- The call `os.Exit(code)`. -/
def osExit {α : Type} (code : Nat) : Prog α := fun _ tr => (Res.exit code, tr)

/-- A run-time panic. -/
def goPanic {α : Type} : Prog α := fun _ tr => (Res.panic, tr)

/-- The call `fmt.Println(operands...)`. -/
def Println (operands : List Operand) : Prog Unit :=
  fun _ tr => (Res.ret (), tr ++ [Event.println operands])

/-- The function `runCommandAndGetOutput`. -/
def runCommandAndGetOutput (name : String) (args : List String) :
    Prog (String × Option String) :=
  fun w tr =>
    let r := w.run tr name args
    (Res.ret r, tr ++ [Event.exec name args r.1 r.2])

/-- The function `promptAIAgent`. -/
def promptAIAgent (prompt : String) (model : AIModel) : Prog (String × Option String) :=
  runCommandAndGetOutput "opencode" ["-m", model, "run", prompt]

/-- The function `checkForStagedChanges`. -/
def checkForStagedChanges : Prog Unit := do
  let (stagedChanges, err) ← runCommandAndGetOutput "git" ["diff", "--cached", "--stat"]
  if let some e := err then
    Println [Operand.str "Error running 'git diff --cached --stat':", Operand.err e]
    osExit 1
  if stagedChanges = "" then
    Println [Operand.str
      "No staged changes found. Please stage your changes before running this tool."]
    osExit 0

/-- The function `extendPromptWithCommitHistory`. -/
def extendPromptWithCommitHistory (prompt : String) : Prog String := do
  let prompt := prompt ++ "# List of the last commits (additional context):\n"
  let (lastCommits, err) ←
    runCommandAndGetOutput "git" ["log", "-n", "5", "--pretty=oneline", "--abbrev-commit"]
  if let some e := err then
    Println [Operand.str "Error running 'git log -n 5 --pretty=oneline --abbrev-commit':",
      Operand.err e]
    osExit 1
  let prompt := prompt ++
    ("```console\n" ++ "$ git log -n 5 --pretty=oneline --abbrev-commit\n" ++ lastCommits ++ "```\n")
  return prompt

/-- The function `extendPromptWithCodeChanges`. -/
def extendPromptWithCodeChanges (prompt : String) : Prog String := do
  let prompt := prompt ++ "# Diff to analyze:\n"
  let (diffStats, err) ← runCommandAndGetOutput "git" ["diff", "--cached", "--stat"]
  if let some e := err then
    Println [Operand.str "Error running 'git diff --cached --stat':", Operand.err e]
    osExit 1
  let prompt := prompt ++
    ("```console\n" ++ "$ git diff --cached --stat\n" ++ diffStats ++ "```\n")
  let (diff, err) ← runCommandAndGetOutput "git" ["diff", "--cached"]
  if let some e := err then
    Println [Operand.str "Error running 'git diff --cached':", Operand.err e]
    osExit 1
  let prompt := prompt ++ ("```console\n" ++ "$ git diff --cached\n" ++ diff ++ "```\n")
  return prompt

/-- The closure `Searcher` built in `selectCommitMessage`, over the captured
slice.  An index outside the slice panics, which is `none` here. -/
def Searcher (tbl : List CaseRange) (commitMessages : List CommitMessage)
    (input : String) (index : Nat) : Option Bool :=
  match commitMessages[index]? with
  | none => none
  | some commit =>
    let name := commit.Title ++ " " ++ commit.Description
    let inputLower := ToLower tbl input
    let nameLower := ToLower tbl name
    some (Contains nameLower inputLower)

/-- The call `selectPrompt.Run()`: the menu runs over the items and its result
is recorded. -/
def selectPromptRun (items : List CommitMessage) : Prog (Nat × Option String) :=
  fun w tr =>
    let r := w.selectRun tr items
    (Res.ret r, tr ++ [Event.select items r.1 r.2])

/-- The function `selectCommitMessage`. -/
def selectCommitMessage (commitMessages : List CommitMessage) : Prog CommitMessage := do
  let (idx, err) ← selectPromptRun commitMessages
  if let some e := err then
    Println [Operand.str "Prompt failed:", Operand.err e]
    osExit 1
  match commitMessages[idx]? with
  | none => goPanic
  | some topCommitMessage => return topCommitMessage

/-- The function `gitCommit`. -/
def gitCommit (selectedCommitMessage : CommitMessage) : Prog String := do
  let (output, err) ← runCommandAndGetOutput "git"
    ["commit", "-m", selectedCommitMessage.Title, "-m", selectedCommitMessage.Description]
  if let some e := err then
    Println [Operand.str "Error running 'git commit':", Operand.err e]
    osExit 1
  return output

/-- The function `main`.  The parameter is the table-driven part of the JSON
decoder's field-name folding. -/
def main (foldRune : Char → Char) : Prog Unit := do
  checkForStagedChanges
  let prompt := Sprintf promptTemplate [topCommitMessageCount]
  let prompt ← extendPromptWithCodeChanges prompt
  let prompt ← extendPromptWithCommitHistory prompt
  let (jsonResponse, err) ← promptAIAgent prompt gpt4o
  if let some e := err then
    Println [Operand.str "Error running 'opencode run':", Operand.err e]
    osExit 1
  match Unmarshal foldRune jsonResponse with
  | Except.error e =>
    Println [Operand.str "Error parsing JSON:", Operand.jsonErr e]
    osExit 1
  | Except.ok commitMessages =>
    if commitMessages.length = 0 then
      Println [Operand.str "No commit messages generated."]
      osExit 1
    let selectedCommitMessage ← selectCommitMessage commitMessages
    let output ← gitCommit selectedCommitMessage
    Println [Operand.str output]

/-- The exit status of the process: 0 when `main` returns, the argument of
`os.Exit`, and 2 after a panic. -/
def exitStatus {α : Type} : Res α → Nat
  | Res.ret _ => 0
  | Res.exit code => code
  | Res.panic => 2

/-- A whole run of the program in a world: exit status and trace. -/
def runMain (foldRune : Char → Char) (w : World) : Nat × List Event :=
  let r := main foldRune w []
  (exitStatus r.1, r.2)

/-! ## Vocabulary for statements about runs -/

/-- The text `Sprintf` must produce from the template: everything before the
`%d` directive, the count, everything after it. -/
def ruleText (count : String) : String :=
  "You are a helpful commit message generator.\n" ++
  "Generate me an array of the top " ++ count ++
  " commit message recommendations in json format.\n" ++
  "Only one commit is picked from the returned commit message list.\n" ++
  "Only answer with the json! Nothing else! No markdown!\n" ++
  "\n" ++
  "# Rules for writing commit messages:\n" ++
  "- Use the conventional commit specification.\n" ++
  "- Capitalized, short (50 chars or less) summary (title)\n" ++
  "- More detailed description, if necessary. Bullet points can be used, too. Typically a hyphen or asterisk is used for the bullet, preceded by a single space, with blank lines in between\n" ++
  "- What was the motivation for the change?\n" ++
  "- How does it differ from the previous implementation?\n" ++
  "- You MUST insert newlines in the description to ensure a maximum of 72 characters per line.\n" ++
  "- Write your commit message in the imperative: \"Fix bug\" and not \"Fixed bug\" or \"Fixes bug.\" \n" ++
  "\n" ++
  "# Example output format:\n" ++
  "Here is an example of the output format:\n" ++
  "[\n" ++
  "\t\x7b\n" ++
  "\t\t\"title\": \"feat: add user authentication flow\",\n" ++
  "\t\t\"description\": \"Implement login, registration, and JWT-based session management for secure user access.\"\n" ++
  "\t\x7d\n" ++
  "]\n" ++
  "\n"

/-- A transcript fence: it opens with the console marker, echoes the command
line after a dollar sign, holds the captured output and closes. -/
def fence (commandLine output : String) : String :=
  "```console\n" ++ ("$ " ++ commandLine ++ "\n") ++ output ++ "```\n"

/-- The prompt in the order the specification gives: rules, labelled
diff-stat block, full-diff block, labelled commit-log block. -/
def expectedPrompt (stat diff log : String) : String :=
  ruleText "5" ++
  ("# Diff to analyze:\n" ++ fence "git diff --cached --stat" stat) ++
  fence "git diff --cached" diff ++
  ("# List of the last commits (additional context):\n" ++
    fence "git log -n 5 --pretty=oneline --abbrev-commit" log)

/-- The event of one `git diff --cached --stat` call. -/
def statEvent (output : String) (err : Option String) : Event :=
  Event.exec "git" ["diff", "--cached", "--stat"] output err

/-- The event of the `git diff --cached` call. -/
def diffEvent (output : String) (err : Option String) : Event :=
  Event.exec "git" ["diff", "--cached"] output err

/-- The event of the `git log` call. -/
def logEvent (output : String) (err : Option String) : Event :=
  Event.exec "git" ["log", "-n", "5", "--pretty=oneline", "--abbrev-commit"] output err

/-- The event of the agent call with a given prompt. -/
def agentEvent (prompt output : String) (err : Option String) : Event :=
  Event.exec "opencode" ["-m", "github-copilot/gpt-4o", "run", prompt] output err

/-- The event of a `git commit` call with two message arguments. -/
def commitEvent (title description output : String) (err : Option String) : Event :=
  Event.exec "git" ["commit", "-m", title, "-m", description] output err

/-- The line printed when nothing is staged. -/
def noStagedChangesLine : Event :=
  Event.println [Operand.str
    "No staged changes found. Please stage your changes before running this tool."]

/-- The line printed for an empty candidate list. -/
def noCommitMessagesLine : Event :=
  Event.println [Operand.str "No commit messages generated."]

/-- The line printed for a JSON decoding error. -/
def jsonErrorLine (e : JsonError) : Event :=
  Event.println [Operand.str "Error parsing JSON:", Operand.jsonErr e]

/-- The events of a run that got as far as calling the agent. -/
def uptoAgent (gate stat diff log out : String) (err : Option String) : List Event :=
  [statEvent gate none, statEvent stat none, diffEvent diff none, logEvent log none,
    agentEvent (expectedPrompt stat diff log) out err]

/-- The gate saw staged changes: the first subprocess call succeeded with a
non-empty output. -/
def GateOk (w : World) (gate : String) : Prop :=
  w.run [] "git" ["diff", "--cached", "--stat"] = (gate, none) ∧ gate ≠ ""

/-- The gate passed and the diff-stat call of the prompt builder succeeded. -/
def StatOk (w : World) (gate stat : String) : Prop :=
  GateOk w gate ∧
  w.run [statEvent gate none] "git" ["diff", "--cached", "--stat"] = (stat, none)

/-- As `StatOk`, and the full-diff call succeeded. -/
def DiffOk (w : World) (gate stat diff : String) : Prop :=
  StatOk w gate stat ∧
  w.run [statEvent gate none, statEvent stat none] "git" ["diff", "--cached"] = (diff, none)

/-- As `DiffOk`, and the commit-log call succeeded. -/
def LogOk (w : World) (gate stat diff log : String) : Prop :=
  DiffOk w gate stat diff ∧
  w.run [statEvent gate none, statEvent stat none, diffEvent diff none] "git"
    ["log", "-n", "5", "--pretty=oneline", "--abbrev-commit"] = (log, none)

/-- The history at the moment the agent is called. -/
def beforeAgent (gate stat diff log : String) : List Event :=
  [statEvent gate none, statEvent stat none, diffEvent diff none, logEvent log none]

/-- As `LogOk`, and the agent call succeeded with output `out`. -/
def AgentOk (w : World) (gate stat diff log out : String) : Prop :=
  LogOk w gate stat diff log ∧
  w.run (beforeAgent gate stat diff log) "opencode"
    ["-m", "github-copilot/gpt-4o", "run", expectedPrompt stat diff log] = (out, none)

/-- As `AgentOk`, the output decoded to the non-empty list `cms`, and the menu
returned the index `idx` without error. -/
def SelectOk (foldRune : Char → Char) (w : World) (gate stat diff log out : String)
    (cms : List CommitMessage) (idx : Nat) : Prop :=
  AgentOk w gate stat diff log out ∧ Unmarshal foldRune out = Except.ok cms ∧ cms ≠ [] ∧
  w.selectRun (uptoAgent gate stat diff log out none) cms = (idx, none)

/-- The twelve ways a run can go in a world, as exit status and trace. -/
inductive RunShape (foldRune : Char → Char) (w : World) : Nat → List Event → Prop where
  | gateError (o e : String)
      (h : w.run [] "git" ["diff", "--cached", "--stat"] = (o, some e)) :
      RunShape foldRune w 1
      [statEvent o (some e),
        Event.println [Operand.str "Error running 'git diff --cached --stat':", Operand.err e]]
  | nothingStaged (h : w.run [] "git" ["diff", "--cached", "--stat"] = ("", none)) :
      RunShape foldRune w 0 [statEvent "" none, noStagedChangesLine]
  | statError (gate o e : String) (hg : GateOk w gate)
      (h : w.run [statEvent gate none] "git" ["diff", "--cached", "--stat"] = (o, some e)) :
      RunShape foldRune w 1
      [statEvent gate none, statEvent o (some e),
        Event.println [Operand.str "Error running 'git diff --cached --stat':", Operand.err e]]
  | diffError (gate stat o e : String) (hs : StatOk w gate stat)
      (h : w.run [statEvent gate none, statEvent stat none] "git" ["diff", "--cached"]
        = (o, some e)) :
      RunShape foldRune w 1
      [statEvent gate none, statEvent stat none, diffEvent o (some e),
        Event.println [Operand.str "Error running 'git diff --cached':", Operand.err e]]
  | logError (gate stat diff o e : String) (hd : DiffOk w gate stat diff)
      (h : w.run [statEvent gate none, statEvent stat none, diffEvent diff none] "git"
        ["log", "-n", "5", "--pretty=oneline", "--abbrev-commit"] = (o, some e)) :
      RunShape foldRune w 1
      [statEvent gate none, statEvent stat none, diffEvent diff none, logEvent o (some e),
        Event.println [Operand.str
          "Error running 'git log -n 5 --pretty=oneline --abbrev-commit':", Operand.err e]]
  | agentError (gate stat diff log o e : String) (hl : LogOk w gate stat diff log)
      (h : w.run (beforeAgent gate stat diff log) "opencode"
        ["-m", "github-copilot/gpt-4o", "run", expectedPrompt stat diff log] = (o, some e)) :
      RunShape foldRune w 1
      (uptoAgent gate stat diff log o (some e) ++
        [Event.println [Operand.str "Error running 'opencode run':", Operand.err e]])
  | decodeError (gate stat diff log out : String) (e : JsonError)
      (ha : AgentOk w gate stat diff log out)
      (hd : Unmarshal foldRune out = Except.error e) : RunShape foldRune w 1
      (uptoAgent gate stat diff log out none ++ [jsonErrorLine e])
  | noCandidates (gate stat diff log out : String)
      (ha : AgentOk w gate stat diff log out)
      (hd : Unmarshal foldRune out = Except.ok []) : RunShape foldRune w 1
      (uptoAgent gate stat diff log out none ++ [noCommitMessagesLine])
  | selectError (gate stat diff log out : String) (cms : List CommitMessage) (idx : Nat)
      (e : String) (ha : AgentOk w gate stat diff log out)
      (hd : Unmarshal foldRune out = Except.ok cms) (hne : cms ≠ [])
      (h : w.selectRun (uptoAgent gate stat diff log out none) cms = (idx, some e)) :
      RunShape foldRune w 1
      (uptoAgent gate stat diff log out none ++
        [Event.select cms idx (some e),
          Event.println [Operand.str "Prompt failed:", Operand.err e]])
  | indexPanic (gate stat diff log out : String) (cms : List CommitMessage) (idx : Nat)
      (hs : SelectOk foldRune w gate stat diff log out cms idx)
      (hi : cms[idx]? = none) : RunShape foldRune w 2
      (uptoAgent gate stat diff log out none ++ [Event.select cms idx none])
  | commitError (gate stat diff log out : String) (cms : List CommitMessage) (idx : Nat)
      (cm : CommitMessage) (o e : String)
      (hs : SelectOk foldRune w gate stat diff log out cms idx)
      (hi : cms[idx]? = some cm)
      (h : w.run (uptoAgent gate stat diff log out none ++ [Event.select cms idx none]) "git"
        ["commit", "-m", cm.Title, "-m", cm.Description] = (o, some e)) :
      RunShape foldRune w 1
      (uptoAgent gate stat diff log out none ++
        [Event.select cms idx none, commitEvent cm.Title cm.Description o (some e),
          Event.println [Operand.str "Error running 'git commit':", Operand.err e]])
  | committed (gate stat diff log out : String) (cms : List CommitMessage) (idx : Nat)
      (cm : CommitMessage) (o : String)
      (hs : SelectOk foldRune w gate stat diff log out cms idx)
      (hi : cms[idx]? = some cm)
      (h : w.run (uptoAgent gate stat diff log out none ++ [Event.select cms idx none]) "git"
        ["commit", "-m", cm.Title, "-m", cm.Description] = (o, none)) :
      RunShape foldRune w 0
      (uptoAgent gate stat diff log out none ++
        [Event.select cms idx none, commitEvent cm.Title cm.Description o none,
          Event.println [Operand.str o]])

/-! ## The change gate -/

/-- A world for the examples: every subprocess succeeds, `git` answers with
its arguments, the agent with one fixed candidate, and the menu picks the
first item (an empty menu fails). -/
def demoWorld : World where
  run := fun _ name args =>
    if name = "opencode" then
      ("[\x7b\"title\":\"feat: add X\",\"description\":\"Implements X.\"\x7d]", none)
    else (String.intercalate " " args, none)
  selectRun := fun _ items => if items.length = 0 then (0, some "no items") else (0, none)

/-- Whether an event is a call of `git commit`. -/
def Event.isCommitCall : Event → Bool
  | Event.exec name args _ _ => name = "git" && args.head? = some "commit"
  | _ => false

/-- Whether an event is the menu running. -/
def Event.isSelect : Event → Bool
  | Event.select _ _ _ => true
  | _ => false

/-- Whether an event is a stage reaching outside the process: a subprocess or
the menu. -/
def Event.isStage : Event → Bool
  | Event.exec _ _ _ _ => true
  | Event.select _ _ _ => true
  | Event.println _ => false

/-- Whether an event is a stage that returned an error. -/
def Event.failed : Event → Bool
  | Event.exec _ _ _ (some _) => true
  | Event.select _ _ (some _) => true
  | _ => false

/-- No stage runs after a failed one. -/
def quietAfterFailure : List Event → Bool
  | [] => true
  | e :: rest => (!e.failed || rest.all fun e1 => !e1.isStage) && quietAfterFailure rest

/-- The last two events of a trace. -/
def lastTwo (tr : List Event) : List Event := (tr.reverse.take 2).reverse

/-- The run ended at the early exit of the gate. -/
def EndsNothingStaged (tr : List Event) : Prop :=
  tr = [statEvent "" none, noStagedChangesLine]

/-- The run ended with a successful `git commit` whose output was printed. -/
def EndsCommitted (tr : List Event) : Prop :=
  ∃ title description output,
    lastTwo tr = [commitEvent title description output none,
      Event.println [Operand.str output]]

/-- Some subprocess of the run returned an error. -/
def SubprocessFailed (tr : List Event) : Prop :=
  ∃ name args output e, Event.exec name args output (some e) ∈ tr

/-- The menu returned an error. -/
def SelectionFailed (tr : List Event) : Prop :=
  ∃ items idx e, Event.select items idx (some e) ∈ tr

/-- The agent answered and its output did not decode. -/
def DecodeFailed (foldRune : Char → Char) (tr : List Event) : Prop :=
  ∃ args output e, Event.exec "opencode" args output none ∈ tr ∧
    Unmarshal foldRune output = Except.error e

/-- The agent answered and its output decoded to the empty list. -/
def NoCandidates (foldRune : Char → Char) (tr : List Event) : Prop :=
  ∃ args output, Event.exec "opencode" args output none ∈ tr ∧
    Unmarshal foldRune output = Except.ok []

/-- The contract of the menu library: an index returned without error is an
index of the items shown. -/
def SelectInBounds (w : World) : Prop :=
  ∀ tr items, (w.selectRun tr items).2 = none → (w.selectRun tr items).1 < items.length

/-- A world like `demoWorld` whose agent answers with the empty array. -/
def emptyAnswerWorld : World where
  run := fun _ name args =>
    if name = "opencode" then ("[]", none) else (String.intercalate " " args, none)
  selectRun := fun _ _ => (0, none)

/-- The entry of `unicode.CaseRanges` for U+0131, the dotless i: its upper case
form is the ASCII letter `I`, 232 code points below, and it is its own lower
case form. -/
def dotlessIRange : CaseRange := ⟨0x131, 0x131, (-232, 0, -232)⟩

/-- The characters `sub` occur in `s` as a contiguous block. -/
def IsSubstring (sub s : List Char) : Prop := ∃ pre post, s = pre ++ sub ++ post

/-- Two characters that are equal or are the two case forms of one ASCII
letter. -/
def asciiLetterVariant (c d : Char) : Prop :=
  c = d ∨
  ('a'.toNat ≤ c.toNat ∧ c.toNat ≤ 'z'.toNat ∧ d.toNat + 32 = c.toNat) ∨
  ('a'.toNat ≤ d.toNat ∧ d.toNat ≤ 'z'.toNat ∧ c.toNat + 32 = d.toNat)

/-- Two strings that differ at most in the case of ASCII letters. -/
def AsciiCaseVariant (q q1 : String) : Prop := List.Forall₂ asciiLetterVariant q.data q1.data

/-! ## The JSON grammar (RFC 8259), independent of the decoder -/

/-- A run of JSON white space. -/
def IsWs (ws : List Char) : Prop := ∀ c ∈ ws, c = ' ' ∨ c = '\t' ∨ c = '\r' ∨ c = '\n'

instance (ws : List Char) : Decidable (IsWs ws) := by
  unfold IsWs
  infer_instance

/-- A run of decimal digits. -/
def IsDigits (ds : List Char) : Prop := ∀ c ∈ ds, '0'.toNat ≤ c.toNat ∧ c.toNat ≤ '9'.toNat

/-- A hexadecimal digit, in either case. -/
def IsHexDigit (c : Char) : Prop :=
  ('0'.toNat ≤ c.toNat ∧ c.toNat ≤ '9'.toNat) ∨ ('a'.toNat ≤ c.toNat ∧ c.toNat ≤ 'f'.toNat) ∨
  ('A'.toNat ≤ c.toNat ∧ c.toNat ≤ 'F'.toNat)

/-- The text between the quotes of a JSON string: unescaped characters from
U+0020 on other than the quote and the backslash, the eight two-character
escapes, and `\u` with four hexadecimal digits. -/
inductive JsonChars : List Char → Prop where
  | nil : JsonChars []
  | plain (c : Char) (rest : List Char) (hq : c ≠ '"') (hb : c ≠ '\\')
      (hc : 0x20 ≤ c.toNat) (hr : JsonChars rest) : JsonChars (c :: rest)
  | escape (e : Char) (rest : List Char)
      (he : e = '"' ∨ e = '\\' ∨ e = '/' ∨ e = 'b' ∨ e = 'f' ∨ e = 'n' ∨ e = 'r' ∨ e = 't')
      (hr : JsonChars rest) : JsonChars ('\\' :: e :: rest)
  | unicode (h1 h2 h3 h4 : Char) (rest : List Char) (x1 : IsHexDigit h1) (x2 : IsHexDigit h2)
      (x3 : IsHexDigit h3) (x4 : IsHexDigit h4) (hr : JsonChars rest) :
      JsonChars ('\\' :: 'u' :: h1 :: h2 :: h3 :: h4 :: rest)

/-- A JSON string: quote, characters, quote. -/
def JsonString (s : List Char) : Prop := ∃ body, JsonChars body ∧ s = '"' :: body ++ ['"']

/-- The integer part of a JSON number: `0`, or a non-zero digit and digits. -/
def JsonInt (s : List Char) : Prop :=
  s = ['0'] ∨ ∃ d ds, '1'.toNat ≤ d.toNat ∧ d.toNat ≤ '9'.toNat ∧ IsDigits ds ∧ s = d :: ds

/-- The optional fraction part: a point and at least one digit. -/
def JsonFrac (s : List Char) : Prop :=
  s = [] ∨ ∃ d ds, IsDigits (d :: ds) ∧ s = '.' :: d :: ds

/-- The optional exponent part: `e` or `E`, an optional sign, at least one
digit. -/
def JsonExp (s : List Char) : Prop :=
  s = [] ∨ ∃ e sign d ds, (e = 'e' ∨ e = 'E') ∧ (sign = [] ∨ sign = ['+'] ∨ sign = ['-']) ∧
    IsDigits (d :: ds) ∧ s = e :: sign ++ d :: ds

/-- A JSON number. -/
def JsonNumber (s : List Char) : Prop :=
  ∃ sign int frac exp, (sign = [] ∨ sign = ['-']) ∧ JsonInt int ∧ JsonFrac frac ∧ JsonExp exp ∧
    s = sign ++ int ++ frac ++ exp

mutual
/-- A JSON value as text. -/
inductive JsonValue : List Char → Prop where
  | null : JsonValue ['n', 'u', 'l', 'l']
  | true : JsonValue ['t', 'r', 'u', 'e']
  | false : JsonValue ['f', 'a', 'l', 's', 'e']
  | number (s : List Char) (h : JsonNumber s) : JsonValue s
  | string (s : List Char) (h : JsonString s) : JsonValue s
  | emptyArray (ws : List Char) (h : IsWs ws) : JsonValue ('[' :: ws ++ [']'])
  | array (els : List Char) (h : JsonElements els) : JsonValue ('[' :: els ++ [']'])
  | emptyObject (ws : List Char) (h : IsWs ws) : JsonValue ('\x7b' :: ws ++ ['\x7d'])
  | object (ms : List Char) (h : JsonMembers ms) : JsonValue ('\x7b' :: ms ++ ['\x7d'])
/-- The elements of a non-empty array, separated by commas, each with
optional white space around it. -/
inductive JsonElements : List Char → Prop where
  | one (ws1 v ws2 : List Char) (h1 : IsWs ws1) (hv : JsonValue v) (h2 : IsWs ws2) :
      JsonElements (ws1 ++ v ++ ws2)
  | more (ws1 v ws2 rest : List Char) (h1 : IsWs ws1) (hv : JsonValue v) (h2 : IsWs ws2)
      (hr : JsonElements rest) : JsonElements (ws1 ++ v ++ ws2 ++ ',' :: rest)
/-- The members of a non-empty object: `string : value`, separated by commas,
with optional white space around every token. -/
inductive JsonMembers : List Char → Prop where
  | one (ws1 k ws2 ws3 v ws4 : List Char) (h1 : IsWs ws1) (hk : JsonString k) (h2 : IsWs ws2)
      (h3 : IsWs ws3) (hv : JsonValue v) (h4 : IsWs ws4) :
      JsonMembers (ws1 ++ k ++ ws2 ++ ':' :: ws3 ++ v ++ ws4)
  | more (ws1 k ws2 ws3 v ws4 rest : List Char) (h1 : IsWs ws1) (hk : JsonString k)
      (h2 : IsWs ws2) (h3 : IsWs ws3) (hv : JsonValue v) (h4 : IsWs ws4)
      (hr : JsonMembers rest) :
      JsonMembers (ws1 ++ k ++ ws2 ++ ':' :: ws3 ++ v ++ ws4 ++ ',' :: rest)
end

/-- A well-formed JSON text: one value with optional white space around it. -/
def WellFormedJSON (s : String) : Prop :=
  ∃ ws1 v ws2, IsWs ws1 ∧ JsonValue v ∧ IsWs ws2 ∧ s.data = ws1 ++ v ++ ws2

/-! ## JSON texts that encode a list of commit messages -/

/-- The lower-case hexadecimal digit of a value below 16. -/
def hexDigitLower (n : Nat) : Char := if n < 10 then Char.ofNat (48 + n) else Char.ofNat (87 + n)

/-- The upper-case hexadecimal digit of a value below 16. -/
def hexDigitUpper (n : Nat) : Char := if n < 10 then Char.ofNat (48 + n) else Char.ofNat (55 + n)

/-- The character `c` is a hexadecimal digit of value `n`, in either case. -/
def IsHexOf (n : Nat) (c : Char) : Prop :=
  n < 16 ∧ (c = hexDigitLower n ∨ c = hexDigitUpper n)

/-- Four hexadecimal digits that spell the number `n`. -/
def IsHex4 (n : Nat) (h1 h2 h3 h4 : Char) : Prop :=
  n < 65536 ∧ IsHexOf (n / 4096) h1 ∧ IsHexOf (n / 256 % 16) h2 ∧ IsHexOf (n / 16 % 16) h3 ∧
    IsHexOf (n % 16) h4

/-- The ways a JSON string can spell one character: itself (from U+0020 on,
except quote and backslash), one of the eight short escapes, `\u` with its
code point, or for a code point from U+10000 on the two `\u` escapes of its
UTF-16 surrogate pair. -/
inductive EncChar : Char → List Char → Prop where
  | plain (c : Char) (hq : c ≠ '"') (hb : c ≠ '\\') (hc : 0x20 ≤ c.toNat) : EncChar c [c]
  | quote : EncChar '"' ['\\', '"']
  | backslash : EncChar '\\' ['\\', '\\']
  | slash : EncChar '/' ['\\', '/']
  | backspace : EncChar (Char.ofNat 8) ['\\', 'b']
  | formFeed : EncChar (Char.ofNat 12) ['\\', 'f']
  | lineFeed : EncChar '\n' ['\\', 'n']
  | carriageReturn : EncChar '\r' ['\\', 'r']
  | tab : EncChar '\t' ['\\', 't']
  | unicode (c h1 h2 h3 h4 : Char) (h : IsHex4 c.toNat h1 h2 h3 h4) :
      EncChar c ['\\', 'u', h1, h2, h3, h4]
  | pair (c h1 h2 h3 h4 k1 k2 k3 k4 : Char) (hc : 0x10000 ≤ c.toNat)
      (hh : IsHex4 (0xD800 + (c.toNat - 0x10000) / 1024) h1 h2 h3 h4)
      (hl : IsHex4 (0xDC00 + (c.toNat - 0x10000) % 1024) k1 k2 k3 k4) :
      EncChar c ['\\', 'u', h1, h2, h3, h4, '\\', 'u', k1, k2, k3, k4]

/-- A text spelling the characters of a string, one after the other. -/
inductive EncChars : List Char → List Char → Prop where
  | nil : EncChars [] []
  | cons (c : Char) (e s t : List Char) (hc : EncChar c e) (hr : EncChars s t) :
      EncChars (c :: s) (e ++ t)

/-- A JSON string literal that encodes the string `s`. -/
def EncString (s : String) (t : List Char) : Prop :=
  ∃ body, EncChars s.data body ∧ t = '"' :: body ++ ['"']

/-- An object member `name : value` with a string value. -/
def EncMember (name value : String) (t : List Char) : Prop :=
  ∃ k ws1 ws2 v, EncString name k ∧ IsWs ws1 ∧ IsWs ws2 ∧ EncString value v ∧
    t = k ++ ws1 ++ ':' :: ws2 ++ v

/-- The members of an object with string values, from the first key up to the
closing brace (excluded). -/
inductive EncMembers : List (String × String) → List Char → Prop where
  | one (name value : String) (m ws : List Char) (hm : EncMember name value m)
      (hws : IsWs ws) : EncMembers [(name, value)] (m ++ ws)
  | more (name value : String) (rest : List (String × String)) (m ws1 ws2 t : List Char)
      (hm : EncMember name value m) (h1 : IsWs ws1) (h2 : IsWs ws2)
      (hr : EncMembers rest t) :
      EncMembers ((name, value) :: rest) (m ++ ws1 ++ ',' :: ws2 ++ t)

/-- A JSON object with exactly the two string fields `title` and
`description` of a commit message, in either order. -/
def EncObject (cm : CommitMessage) (t : List Char) : Prop :=
  ∃ ws ms, IsWs ws ∧
    (EncMembers [("title", cm.Title), ("description", cm.Description)] ms ∨
      EncMembers [("description", cm.Description), ("title", cm.Title)] ms) ∧
    t = '\x7b' :: ws ++ ms ++ ['\x7d']

/-- The elements of a non-empty array of such objects, up to the closing
bracket (excluded). -/
inductive EncElements : List CommitMessage → List Char → Prop where
  | one (cm : CommitMessage) (ws1 o ws2 : List Char) (h1 : IsWs ws1) (ho : EncObject cm o)
      (h2 : IsWs ws2) : EncElements [cm] (ws1 ++ o ++ ws2)
  | more (cm : CommitMessage) (cms : List CommitMessage) (ws1 o ws2 t : List Char)
      (h1 : IsWs ws1) (ho : EncObject cm o) (h2 : IsWs ws2) (hr : EncElements cms t) :
      EncElements (cm :: cms) (ws1 ++ o ++ ws2 ++ ',' :: t)

/-- A JSON array that encodes the list of commit messages. -/
def EncArray (cms : List CommitMessage) (t : List Char) : Prop :=
  (cms = [] ∧ ∃ ws, IsWs ws ∧ t = '[' :: ws ++ [']']) ∨
  ∃ els, EncElements cms els ∧ t = '[' :: els ++ [']']

/-- A JSON text that encodes the list of commit messages: the array with
optional white space around it. -/
def EncDocument (cms : List CommitMessage) (s : String) : Prop :=
  ∃ ws1 a ws2, IsWs ws1 ∧ EncArray cms a ∧ IsWs ws2 ∧ s.data = ws1 ++ a ++ ws2

/-- A world like `demoWorld` whose agent answers with one object that has a
description and no title. -/
def untitledAnswerWorld : World where
  run := fun _ name args =>
    if name = "opencode" then ("[\x7b\"description\":\"only a body\"\x7d]", none)
    else (String.intercalate " " args, none)
  selectRun := fun _ items => if items.length = 0 then (0, some "no items") else (0, none)

/-! ## Go strings as bytes -/

/-- One byte. -/
abbrev Byte := Fin 256

/-- A Go `string` or `[]byte` as it is in memory: a sequence of bytes, which
need not be UTF-8. -/
abbrev Bytes := List Byte

/-- The function `utf8.AppendRune` for one code point. -/
def encodeRune (c : Char) : Bytes :=
  if c.toNat < 0x80 then [Fin.ofNat c.toNat]
  else if c.toNat < 0x800 then
    [Fin.ofNat (0xC0 + c.toNat / 64), Fin.ofNat (0x80 + c.toNat % 64)]
  else if c.toNat < 0x10000 then
    [Fin.ofNat (0xE0 + c.toNat / 4096), Fin.ofNat (0x80 + c.toNat / 64 % 64),
      Fin.ofNat (0x80 + c.toNat % 64)]
  else
    [Fin.ofNat (0xF0 + c.toNat / 262144), Fin.ofNat (0x80 + c.toNat / 4096 % 64),
      Fin.ofNat (0x80 + c.toNat / 64 % 64), Fin.ofNat (0x80 + c.toNat % 64)]

/-- The UTF-8 encoding of a sequence of code points. -/
def encodeRunes : List Char → Bytes
  | [] => []
  | c :: cs => encodeRune c ++ encodeRunes cs

/-- The bytes of a text: its UTF-8 encoding, which is what `[]byte(s)` and the
argument vector of a subprocess hold. -/
def utf8 (s : String) : Bytes := encodeRunes s.data

/-- Whether a byte lies in a range. -/
def inRange (b : Byte) (lo hi : Nat) : Bool := decide (lo ≤ b.val ∧ b.val ≤ hi)

/-- The function `utf8.DecodeRune`: the first code point of the bytes and its
width.  Input that is not UTF-8 (a wrong lead byte, a continuation byte out of
its range, an overlong or surrogate or too large encoding, a cut sequence)
gives U+FFFD with width 1; empty input gives U+FFFD with width 0. -/
def DecodeRune (p : Bytes) : Char × Nat :=
  match p with
  | [] => (replacementChar, 0)
  | b0 :: rest =>
    if b0.val < 0x80 then (Char.ofNat b0.val, 1)
    else if inRange b0 0xC2 0xDF then
      match rest with
      | b1 :: _ =>
        if inRange b1 0x80 0xBF then (Char.ofNat (b0.val % 32 * 64 + b1.val % 64), 2)
        else (replacementChar, 1)
      | _ => (replacementChar, 1)
    else if inRange b0 0xE0 0xEF then
      match rest with
      | b1 :: b2 :: _ =>
        if inRange b1 (if b0.val = 0xE0 then 0xA0 else 0x80) (if b0.val = 0xED then 0x9F else 0xBF)
            ∧ inRange b2 0x80 0xBF then
          (Char.ofNat (b0.val % 16 * 4096 + b1.val % 64 * 64 + b2.val % 64), 3)
        else (replacementChar, 1)
      | _ => (replacementChar, 1)
    else if inRange b0 0xF0 0xF4 then
      match rest with
      | b1 :: b2 :: b3 :: _ =>
        if inRange b1 (if b0.val = 0xF0 then 0x90 else 0x80) (if b0.val = 0xF4 then 0x8F else 0xBF)
            ∧ inRange b2 0x80 0xBF ∧ inRange b3 0x80 0xBF then
          (Char.ofNat (b0.val % 8 * 262144 + b1.val % 64 * 4096 + b2.val % 64 * 64 +
            b3.val % 64), 4)
        else (replacementChar, 1)
      | _ => (replacementChar, 1)
    else (replacementChar, 1)

/-- The loop `for len(p) > 0 { r, size := utf8.DecodeRune(p); p = p[size:] }`
collecting the code points; `fuel` bounds the number of rounds. -/
def decodeRunes : Nat → Bytes → List Char
  | 0, _ => []
  | _ + 1, [] => []
  | fuel + 1, b0 :: rest =>
    (DecodeRune (b0 :: rest)).1 :: decodeRunes fuel (rest.drop ((DecodeRune (b0 :: rest)).2 - 1))

/-- The text the decoder reads from bytes: code point by code point, every
byte that is not part of a UTF-8 sequence read as U+FFFD.  Every round takes at
least one byte, so the length is fuel enough. -/
def decodeText (p : Bytes) : String := ⟨decodeRunes p.length p⟩

/-- The call `json.Unmarshal(data, &commitMessages)` on the bytes themselves.
The scanner rejects every byte from 0x80 on outside a string literal and lets
it pass inside one, where the unquoting reads the bytes rune by rune with
`utf8.DecodeRune`; a continuation byte is never ASCII, so this is the decoding
of the text read from the bytes.  Decoded fields are always UTF-8, hence
texts. -/
def UnmarshalBytes (foldRune : Char → Char) (data : Bytes) :
    Except JsonError (List CommitMessage) :=
  Unmarshal foldRune (decodeText data)

/-- Bytes that are a JSON text: the UTF-8 encoding (RFC 8259, section 8.1) of a
well-formed text. -/
def WellFormedJSONBytes (data : Bytes) : Prop :=
  ∃ s : String, utf8 s = data ∧ WellFormedJSON s

/-! ## The run with Go strings as bytes

The same program once more, with every Go string a sequence of bytes, so that
subprocess output that is not UTF-8 can be stated.  String constants of the
source are the bytes of their text. -/

namespace Raw

/-- An operand of `fmt.Println`: a string or an `error` value. -/
inductive Operand where
  | str (s : Bytes)
  | err (e : String)
  | jsonErr (e : JsonError)
  deriving DecidableEq, Repr

/-- What a run does that is visible from outside, in order. -/
inductive Event where
  /-- A subprocess ran to completion: `exec.Command(name, args...).Output()`
  returned `(output, err)`. -/
  | exec (name : String) (args : List Bytes) (output : Bytes) (err : Option String)
  /-- A call `fmt.Println(operands...)`. -/
  | println (operands : List Operand)
  /-- The interactive menu ran over `items` and returned `(idx, err)`. -/
  | select (items : List CommitMessage) (idx : Nat) (err : Option String)
  deriving DecidableEq, Repr

/-- The environment of a run; each answer may depend on the history so far. -/
structure World where
  /-- Result of running a subprocess: captured standard output and error. -/
  run : List Event → String → List Bytes → Bytes × Option String
  /-- Result of `promptui.Select.Run` on the items: chosen index and error. -/
  selectRun : List Event → List CommitMessage → Nat × Option String

/-- A computation of the program: it reads the world, extends the trace. -/
def Prog (α : Type) : Type := World → List Event → Res α × List Event

/-- Sequencing; `os.Exit` and a panic skip everything that follows. -/
def Prog.bind {α β : Type} (m : Prog α) (f : α → Prog β) : Prog β :=
  fun w tr =>
    match m w tr with
    | (Res.ret a, tr1) => f a w tr1
    | (Res.exit c, tr1) => (Res.exit c, tr1)
    | (Res.panic, tr1) => (Res.panic, tr1)

instance : Monad Prog where
  pure a := fun _ tr => (Res.ret a, tr)
  bind := Prog.bind

/-- The call `os.Exit(code)`. -/
def osExit {α : Type} (code : Nat) : Prog α := fun _ tr => (Res.exit code, tr)

/-- A run-time panic. -/
def goPanic {α : Type} : Prog α := fun _ tr => (Res.panic, tr)

/-- The call `fmt.Println(operands...)`. -/
def Println (operands : List Operand) : Prog Unit :=
  fun _ tr => (Res.ret (), tr ++ [Event.println operands])

/-- The function `runCommandAndGetOutput`. -/
def runCommandAndGetOutput (name : String) (args : List Bytes) :
    Prog (Bytes × Option String) :=
  fun w tr =>
    let r := w.run tr name args
    (Res.ret r, tr ++ [Event.exec name args r.1 r.2])

/-- The function `promptAIAgent`. -/
def promptAIAgent (prompt : Bytes) (model : AIModel) : Prog (Bytes × Option String) :=
  runCommandAndGetOutput "opencode" [utf8 "-m", utf8 model, utf8 "run", prompt]

/-- The function `checkForStagedChanges`. -/
def checkForStagedChanges : Prog Unit := do
  let (stagedChanges, err) ←
    runCommandAndGetOutput "git" [utf8 "diff", utf8 "--cached", utf8 "--stat"]
  if let some e := err then
    Println [Operand.str (utf8 "Error running 'git diff --cached --stat':"), Operand.err e]
    osExit 1
  if stagedChanges = [] then
    Println [Operand.str (utf8
      "No staged changes found. Please stage your changes before running this tool.")]
    osExit 0

/-- The function `extendPromptWithCommitHistory`. -/
def extendPromptWithCommitHistory (prompt : Bytes) : Prog Bytes := do
  let prompt := prompt ++ utf8 "# List of the last commits (additional context):\n"
  let (lastCommits, err) ← runCommandAndGetOutput "git"
    [utf8 "log", utf8 "-n", utf8 "5", utf8 "--pretty=oneline", utf8 "--abbrev-commit"]
  if let some e := err then
    Println [Operand.str
      (utf8 "Error running 'git log -n 5 --pretty=oneline --abbrev-commit':"), Operand.err e]
    osExit 1
  let prompt := prompt ++
    (utf8 "```console\n" ++ utf8 "$ git log -n 5 --pretty=oneline --abbrev-commit\n" ++
      lastCommits ++ utf8 "```\n")
  return prompt

/-- The function `extendPromptWithCodeChanges`. -/
def extendPromptWithCodeChanges (prompt : Bytes) : Prog Bytes := do
  let prompt := prompt ++ utf8 "# Diff to analyze:\n"
  let (diffStats, err) ←
    runCommandAndGetOutput "git" [utf8 "diff", utf8 "--cached", utf8 "--stat"]
  if let some e := err then
    Println [Operand.str (utf8 "Error running 'git diff --cached --stat':"), Operand.err e]
    osExit 1
  let prompt := prompt ++
    (utf8 "```console\n" ++ utf8 "$ git diff --cached --stat\n" ++ diffStats ++ utf8 "```\n")
  let (diff, err) ← runCommandAndGetOutput "git" [utf8 "diff", utf8 "--cached"]
  if let some e := err then
    Println [Operand.str (utf8 "Error running 'git diff --cached':"), Operand.err e]
    osExit 1
  let prompt := prompt ++
    (utf8 "```console\n" ++ utf8 "$ git diff --cached\n" ++ diff ++ utf8 "```\n")
  return prompt

/-- The call `selectPrompt.Run()`: the menu runs over the items and its result
is recorded. -/
def selectPromptRun (items : List CommitMessage) : Prog (Nat × Option String) :=
  fun w tr =>
    let r := w.selectRun tr items
    (Res.ret r, tr ++ [Event.select items r.1 r.2])

/-- The function `selectCommitMessage`. -/
def selectCommitMessage (commitMessages : List CommitMessage) : Prog CommitMessage := do
  let (idx, err) ← selectPromptRun commitMessages
  if let some e := err then
    Println [Operand.str (utf8 "Prompt failed:"), Operand.err e]
    osExit 1
  match commitMessages[idx]? with
  | none => goPanic
  | some topCommitMessage => return topCommitMessage

/-- The function `gitCommit`. -/
def gitCommit (selectedCommitMessage : CommitMessage) : Prog Bytes := do
  let (output, err) ← runCommandAndGetOutput "git"
    [utf8 "commit", utf8 "-m", utf8 selectedCommitMessage.Title, utf8 "-m",
      utf8 selectedCommitMessage.Description]
  if let some e := err then
    Println [Operand.str (utf8 "Error running 'git commit':"), Operand.err e]
    osExit 1
  return output

/-- The function `main`. -/
def main (foldRune : Char → Char) : Prog Unit := do
  checkForStagedChanges
  let prompt := utf8 (Sprintf promptTemplate [topCommitMessageCount])
  let prompt ← extendPromptWithCodeChanges prompt
  let prompt ← extendPromptWithCommitHistory prompt
  let (jsonResponse, err) ← promptAIAgent prompt gpt4o
  if let some e := err then
    Println [Operand.str (utf8 "Error running 'opencode run':"), Operand.err e]
    osExit 1
  match UnmarshalBytes foldRune jsonResponse with
  | Except.error e =>
    Println [Operand.str (utf8 "Error parsing JSON:"), Operand.jsonErr e]
    osExit 1
  | Except.ok commitMessages =>
    if commitMessages.length = 0 then
      Println [Operand.str (utf8 "No commit messages generated.")]
      osExit 1
    let selectedCommitMessage ← selectCommitMessage commitMessages
    let output ← gitCommit selectedCommitMessage
    Println [Operand.str output]

/-- A whole run of the program in a world: exit status and trace. -/
def runMain (foldRune : Char → Char) (w : World) : Nat × List Event :=
  let r := main foldRune w []
  (exitStatus r.1, r.2)

/-- Whether an event is a call of `git commit`. -/
def Event.isCommitCall : Event → Bool
  | Event.exec name args _ _ => name = "git" && args.head? = some (utf8 "commit")
  | _ => false

/-- Whether an event is the menu running. -/
def Event.isSelect : Event → Bool
  | Event.select _ _ _ => true
  | _ => false

/-- The event of one `git diff --cached --stat` call. -/
def statEvent (output : Bytes) : Event :=
  Event.exec "git" [utf8 "diff", utf8 "--cached", utf8 "--stat"] output none

/-- The event of the `git diff --cached` call. -/
def diffEvent (output : Bytes) : Event :=
  Event.exec "git" [utf8 "diff", utf8 "--cached"] output none

/-- The event of the `git log` call. -/
def logEvent (output : Bytes) : Event :=
  Event.exec "git"
    [utf8 "log", utf8 "-n", utf8 "5", utf8 "--pretty=oneline", utf8 "--abbrev-commit"]
    output none

/-- The prompt, as `expectedPrompt`, over bytes. -/
def expectedPrompt (stat diff log : Bytes) : Bytes :=
  utf8 (ruleText "5") ++ utf8 "# Diff to analyze:\n" ++
  (utf8 "```console\n" ++ utf8 "$ git diff --cached --stat\n" ++ stat ++ utf8 "```\n") ++
  (utf8 "```console\n" ++ utf8 "$ git diff --cached\n" ++ diff ++ utf8 "```\n") ++
  utf8 "# List of the last commits (additional context):\n" ++
  (utf8 "```console\n" ++ utf8 "$ git log -n 5 --pretty=oneline --abbrev-commit\n" ++ log ++
    utf8 "```\n")

/-- The event of a successful agent call. -/
def agentEvent (stat diff log output : Bytes) : Event :=
  Event.exec "opencode"
    [utf8 "-m", utf8 "github-copilot/gpt-4o", utf8 "run", expectedPrompt stat diff log]
    output none

/-- The gate passed, the three subprocesses of the prompt builder succeeded
and the agent call succeeded with output `out`. -/
def AgentOk (w : World) (gate stat diff log out : Bytes) : Prop :=
  w.run [] "git" [utf8 "diff", utf8 "--cached", utf8 "--stat"] = (gate, none) ∧ gate ≠ [] ∧
  w.run [statEvent gate] "git" [utf8 "diff", utf8 "--cached", utf8 "--stat"] = (stat, none) ∧
  w.run [statEvent gate, statEvent stat] "git" [utf8 "diff", utf8 "--cached"] =
    (diff, none) ∧
  w.run [statEvent gate, statEvent stat, diffEvent diff] "git"
    [utf8 "log", utf8 "-n", utf8 "5", utf8 "--pretty=oneline", utf8 "--abbrev-commit"] =
    (log, none) ∧
  w.run [statEvent gate, statEvent stat, diffEvent diff, logEvent log] "opencode"
    [utf8 "-m", utf8 "github-copilot/gpt-4o", utf8 "run", expectedPrompt stat diff log] =
    (out, none)

/-- The events of a run up to a successful agent call. -/
def uptoAgent (gate stat diff log out : Bytes) : List Event :=
  [statEvent gate, statEvent stat, diffEvent diff, logEvent log, agentEvent stat diff log out]

end Raw

/-- An agent output with a byte that is not UTF-8 inside the title: the text
`[\x7b"title":"a`, the byte 0xFF, the text `b"\x7d]`. -/
def nonUtf8Answer : Bytes := utf8 "[\x7b\"title\":\"a" ++ [0xFF] ++ utf8 "b\"\x7d]"

/-- A world whose agent answers with `nonUtf8Answer`; `git` succeeds with a
short output and the menu picks the first item. -/
def nonUtf8AnswerWorld : Raw.World where
  run := fun _ name _ => if name = "opencode" then (nonUtf8Answer, none) else (utf8 "ok", none)
  selectRun := fun _ items => if items.length = 0 then (0, some "no items") else (0, none)

/-- A world whose agent wraps its answer in a markdown code fence. -/
def fencedAnswerWorld : Raw.World where
  run := fun _ name _ =>
    if name = "opencode" then (utf8 "```json\n[]\n```", none) else (utf8 "ok", none)
  selectRun := fun _ items => if items.length = 0 then (0, some "no items") else (0, none)

/-! # Theorems -/

/-! ## Evaluating runs -/

theorem bind_run {α β : Type} (m : Prog α) (f : α → Prog β) (w : World) (tr : List Event) :
    (m >>= f) w tr = Prog.bind m f w tr := rfl

theorem pure_run {α : Type} (a : α) (w : World) (tr : List Event) :
    (pure a : Prog α) w tr = (Res.ret a, tr) := rfl

set_option maxRecDepth 100000 in
theorem sprintf_template : Sprintf promptTemplate [topCommitMessageCount] = ruleText "5" := by
  decide

set_option maxRecDepth 100000 in
theorem template_directive : promptTemplate = ruleText "%d" := by
  decide

theorem prompt_assoc (stat diff log : String) :
    ruleText "5" ++ "# Diff to analyze:\n" ++
        ("```console\n$ git diff --cached --stat\n" ++ stat ++ "```\n") ++
        ("```console\n$ git diff --cached\n" ++ diff ++ "```\n") ++
        "# List of the last commits (additional context):\n" ++
        ("```console\n$ git log -n 5 --pretty=oneline --abbrev-commit\n" ++ log ++ "```\n")
      = expectedPrompt stat diff log := by
  have h1 : "```console\n" ++ ("$ " ++ "git diff --cached --stat" ++ "\n")
      = "```console\n$ git diff --cached --stat\n" := by decide
  have h2 : "```console\n" ++ ("$ " ++ "git diff --cached" ++ "\n")
      = "```console\n$ git diff --cached\n" := by decide
  have h3 : "```console\n" ++ ("$ " ++ "git log -n 5 --pretty=oneline --abbrev-commit" ++ "\n")
      = "```console\n$ git log -n 5 --pretty=oneline --abbrev-commit\n" := by decide
  rw [← h1, ← h2, ← h3]
  simp only [expectedPrompt, fence, String.append_assoc]

theorem runMain_shape (foldRune : Char → Char) (w : World) :
    RunShape foldRune w (runMain foldRune w).1 (runMain foldRune w).2 := by
  unfold runMain main
  rcases h0 : w.run [] "git" ["diff", "--cached", "--stat"] with ⟨o0, e0⟩
  cases e0 with
  | some e =>
    simp [bind_run, Prog.bind, Println, osExit, exitStatus, checkForStagedChanges,
      runCommandAndGetOutput, h0]
    exact RunShape.gateError o0 e h0
  | none =>
    by_cases hg : o0 = ""
    · subst hg
      simp [bind_run, Prog.bind, Println, osExit, exitStatus, pure_run, checkForStagedChanges,
        runCommandAndGetOutput, h0]
      exact RunShape.nothingStaged h0
    · have g0 : GateOk w o0 := ⟨h0, hg⟩
      rcases h1 : w.run [Event.exec "git" ["diff", "--cached", "--stat"] o0 none] "git"
        ["diff", "--cached", "--stat"] with ⟨o1, e1⟩
      cases e1 with
      | some e =>
        simp [bind_run, Prog.bind, Println, osExit, exitStatus, pure_run, checkForStagedChanges,
          runCommandAndGetOutput, h0, hg, extendPromptWithCodeChanges, h1]
        exact RunShape.statError o0 o1 e g0 h1
      | none =>
        have g1 : StatOk w o0 o1 := ⟨g0, h1⟩
        rcases h2 : w.run [Event.exec "git" ["diff", "--cached", "--stat"] o0 none,
          Event.exec "git" ["diff", "--cached", "--stat"] o1 none] "git"
          ["diff", "--cached"] with ⟨o2, e2⟩
        cases e2 with
        | some e =>
          simp [bind_run, Prog.bind, Println, osExit, exitStatus, pure_run, checkForStagedChanges,
            runCommandAndGetOutput, h0, hg, extendPromptWithCodeChanges, h1, h2]
          exact RunShape.diffError o0 o1 o2 e g1 h2
        | none =>
          have g2 : DiffOk w o0 o1 o2 := ⟨g1, h2⟩
          rcases h3 : w.run [Event.exec "git" ["diff", "--cached", "--stat"] o0 none,
            Event.exec "git" ["diff", "--cached", "--stat"] o1 none,
            Event.exec "git" ["diff", "--cached"] o2 none] "git"
            ["log", "-n", "5", "--pretty=oneline", "--abbrev-commit"] with ⟨o3, e3⟩
          cases e3 with
          | some e =>
            simp [bind_run, Prog.bind, Println, osExit, exitStatus, pure_run,
              checkForStagedChanges, runCommandAndGetOutput, h0, hg, extendPromptWithCodeChanges,
              h1, h2, extendPromptWithCommitHistory, h3]
            exact RunShape.logError o0 o1 o2 o3 e g2 h3
          | none =>
            have g3 : LogOk w o0 o1 o2 o3 := ⟨g2, h3⟩
            rcases h4 : w.run [Event.exec "git" ["diff", "--cached", "--stat"] o0 none,
              Event.exec "git" ["diff", "--cached", "--stat"] o1 none,
              Event.exec "git" ["diff", "--cached"] o2 none,
              Event.exec "git" ["log", "-n", "5", "--pretty=oneline", "--abbrev-commit"] o3 none]
              "opencode" ["-m", "github-copilot/gpt-4o", "run", expectedPrompt o1 o2 o3]
              with ⟨o4, e4⟩
            cases e4 with
            | some e =>
              simp [bind_run, Prog.bind, Println, osExit, exitStatus, pure_run,
                checkForStagedChanges, runCommandAndGetOutput, h0, hg,
                extendPromptWithCodeChanges, h1, h2, extendPromptWithCommitHistory, h3,
                promptAIAgent, sprintf_template, prompt_assoc, gpt4o, h4]
              exact RunShape.agentError o0 o1 o2 o3 o4 e g3 h4
            | none =>
              have g4 : AgentOk w o0 o1 o2 o3 o4 := ⟨g3, h4⟩
              simp [bind_run, Prog.bind, Println, osExit, exitStatus, pure_run,
                checkForStagedChanges, runCommandAndGetOutput, h0, hg,
                extendPromptWithCodeChanges, h1, h2, extendPromptWithCommitHistory, h3,
                promptAIAgent, sprintf_template, prompt_assoc, gpt4o, h4]
              cases hd : Unmarshal foldRune o4 with
              | error e =>
                simp [bind_run, Prog.bind, Println, osExit, exitStatus]
                exact RunShape.decodeError o0 o1 o2 o3 o4 e g4 hd
              | ok cms =>
                by_cases hne : cms = []
                · subst hne
                  simp [bind_run, Prog.bind, Println, osExit, exitStatus]
                  exact RunShape.noCandidates o0 o1 o2 o3 o4 g4 hd
                · rcases h5 : w.selectRun (uptoAgent o0 o1 o2 o3 o4 none) cms with ⟨idx, e5⟩
                  have h5c := h5
                  simp only [uptoAgent, statEvent, diffEvent, logEvent, agentEvent] at h5
                  cases e5 with
                  | some e =>
                    simp [bind_run, Prog.bind, Println, osExit, exitStatus, pure_run, hne,
                      selectCommitMessage, selectPromptRun, h5]
                    exact RunShape.selectError o0 o1 o2 o3 o4 cms idx e g4 hd hne h5c
                  | none =>
                    have g5 : SelectOk foldRune w o0 o1 o2 o3 o4 cms idx := ⟨g4, hd, hne, h5c⟩
                    cases hi : cms[idx]? with
                    | none =>
                      simp [bind_run, Prog.bind, Println, osExit, exitStatus, pure_run, hne,
                        selectCommitMessage, selectPromptRun, h5, hi, goPanic]
                      exact RunShape.indexPanic o0 o1 o2 o3 o4 cms idx g5 hi
                    | some cm =>
                      rcases h6 : w.run (uptoAgent o0 o1 o2 o3 o4 none ++
                        [Event.select cms idx none]) "git"
                        ["commit", "-m", cm.Title, "-m", cm.Description] with ⟨o6, e6⟩
                      have h6c := h6
                      simp only [uptoAgent, statEvent, diffEvent, logEvent, agentEvent,
                        List.cons_append, List.nil_append] at h6
                      cases e6 with
                      | some e =>
                        simp [bind_run, Prog.bind, Println, osExit, exitStatus, pure_run, hne,
                          selectCommitMessage, selectPromptRun, h5, hi, gitCommit,
                          runCommandAndGetOutput, h6]
                        exact RunShape.commitError o0 o1 o2 o3 o4 cms idx cm o6 e g5 hi h6c
                      | none =>
                        simp [bind_run, Prog.bind, Println, osExit, exitStatus, pure_run, hne,
                          selectCommitMessage, selectPromptRun, h5, hi, gitCommit,
                          runCommandAndGetOutput, h6]
                        exact RunShape.committed o0 o1 o2 o3 o4 cms idx cm o6 g5 hi h6c

/-! ## C1: the change gate -/

/-- C1. When `git diff --cached --stat` succeeds with the empty output, the run
is exactly that call followed by the "no staged changes" line, with exit status
0 (so no agent call and no later stage); when it succeeds with a non-empty
output, `checkForStagedChanges` returns and the next event of the run is the
first subprocess call of the prompt builder. -/
theorem change_gate (foldRune : Char → Char) (w : World) (out : String)
    (h : w.run [] "git" ["diff", "--cached", "--stat"] = (out, none)) :
    (out = "" → runMain foldRune w = (0, [statEvent "" none, noStagedChangesLine])) ∧
    (out ≠ "" →
      checkForStagedChanges w [] = (Res.ret (), [statEvent out none]) ∧
      ∃ rest, (runMain foldRune w).2 =
        statEvent out none ::
          Event.exec "git" ["diff", "--cached", "--stat"]
            (w.run [statEvent out none] "git" ["diff", "--cached", "--stat"]).1
            (w.run [statEvent out none] "git" ["diff", "--cached", "--stat"]).2 :: rest) := by
  have hs := runMain_shape foldRune w
  generalize runMain foldRune w = r at hs ⊢
  obtain ⟨st, tr⟩ := r
  refine ⟨fun he => ?_, fun hne => ⟨?_, ?_⟩⟩
  · subst he
    cases hs
    all_goals simp only [SelectOk, AgentOk, LogOk, DiffOk, StatOk, GateOk] at *
    all_goals try casesm* _ ∧ _
    all_goals simp_all
  · simp [checkForStagedChanges, bind_run, Prog.bind, runCommandAndGetOutput, h, hne,
      pure_run, statEvent]
  · cases hs
    all_goals simp only [SelectOk, AgentOk, LogOk, DiffOk, StatOk, GateOk] at *
    all_goals try casesm* _ ∧ _
    all_goals simp_all [uptoAgent, statEvent]

/-- C1 at a concrete world with something staged. -/
theorem change_gate_witness :
    checkForStagedChanges demoWorld [] =
      (Res.ret (), [statEvent "diff --cached --stat" none]) :=
  ((change_gate id demoWorld "diff --cached --stat" (by decide)).2 (by decide)).1

/-! ## C2: the prompt builder -/

/-- C2. Whenever the gate passes and the three subprocesses of the prompt
builder succeed with outputs `stat`, `diff` and `log`, the next event of the run
is the agent call, and the prompt it is given is exactly the rule text with the
count 5, the labelled diff-stat fence, the full-diff fence and the labelled
commit-log fence, in this order; the rule text is the template with its `%d`
directive replaced. -/
theorem prompt_builder (foldRune : Char → Char) (w : World) (gate stat diff log : String)
    (h : LogOk w gate stat diff log) :
    (∃ out err rest, (runMain foldRune w).2 =
      beforeAgent gate stat diff log ++
        Event.exec "opencode" ["-m", gpt4o, "run",
          ruleText "5" ++
          ("# Diff to analyze:\n" ++ fence "git diff --cached --stat" stat) ++
          fence "git diff --cached" diff ++
          ("# List of the last commits (additional context):\n" ++
            fence "git log -n 5 --pretty=oneline --abbrev-commit" log)] out err :: rest) ∧
    promptTemplate = ruleText "%d" ∧
    ∀ cmd out, fence cmd out = "```console\n" ++ ("$ " ++ cmd ++ "\n") ++ out ++ "```\n" := by
  refine ⟨?_, template_directive, fun _ _ => rfl⟩
  have hs := runMain_shape foldRune w
  generalize runMain foldRune w = r at hs ⊢
  obtain ⟨st, tr⟩ := r
  cases hs
  all_goals simp only [SelectOk, AgentOk, LogOk, DiffOk, StatOk, GateOk] at *
  all_goals try casesm* _ ∧ _
  all_goals simp_all [uptoAgent, beforeAgent, statEvent, diffEvent, logEvent, agentEvent,
    expectedPrompt, gpt4o]

/-- C2 at the example world. -/
theorem prompt_builder_witness :
    promptTemplate = ruleText "%d" :=
  (prompt_builder id demoWorld "diff --cached --stat" "diff --cached --stat" "diff --cached"
    "log -n 5 --pretty=oneline --abbrev-commit"
    ⟨⟨⟨⟨by decide, by decide⟩, by decide⟩, by decide⟩, by decide⟩).2.1

/-! ## C4: the empty candidate list -/

/-- C4. When the agent call succeeds and its output decodes to the empty list,
the run ends right after the agent call with the "no commit messages generated"
line and exit status 1; the menu never runs and `git commit` is never called;
that line differs from the line of a decode error; and the text `[]` is such
an output. -/
theorem empty_candidates (foldRune : Char → Char) (w : World)
    (gate stat diff log out : String) (h : AgentOk w gate stat diff log out)
    (hd : Unmarshal foldRune out = Except.ok []) :
    runMain foldRune w =
      (1, uptoAgent gate stat diff log out none ++ [noCommitMessagesLine]) ∧
    (∀ e ∈ (runMain foldRune w).2, e.isSelect = false ∧ e.isCommitCall = false) ∧
    (∀ e, noCommitMessagesLine ≠ jsonErrorLine e) ∧
    Unmarshal foldRune "[]" = Except.ok [] := by
  have key : runMain foldRune w =
      (1, uptoAgent gate stat diff log out none ++ [noCommitMessagesLine]) := by
    have hs := runMain_shape foldRune w
    generalize runMain foldRune w = r at hs ⊢
    obtain ⟨st, tr⟩ := r
    cases hs
    all_goals simp only [SelectOk, AgentOk, LogOk, DiffOk, StatOk, GateOk] at *
    all_goals try casesm* _ ∧ _
    all_goals simp_all [uptoAgent, beforeAgent, statEvent, diffEvent, logEvent, agentEvent]
  refine ⟨key, ?_, ?_, rfl⟩
  · rw [key]
    intro e he
    simp [uptoAgent, statEvent, diffEvent, logEvent, agentEvent, noCommitMessagesLine] at he
    rcases he with he | he | he | he | he | he <;> subst he <;>
      simp [Event.isSelect, Event.isCommitCall]
  · intro e
    simp [noCommitMessagesLine, jsonErrorLine]

/-- C4 at a world whose agent answers `[]`. -/
theorem empty_candidates_witness :
    runMain id emptyAnswerWorld =
      (1, uptoAgent "diff --cached --stat" "diff --cached --stat" "diff --cached"
        "log -n 5 --pretty=oneline --abbrev-commit" "[]" none ++ [noCommitMessagesLine]) :=
  (empty_candidates id emptyAnswerWorld "diff --cached --stat" "diff --cached --stat"
    "diff --cached" "log -n 5 --pretty=oneline --abbrev-commit" "[]"
    ⟨⟨⟨⟨⟨by decide, by decide⟩, by decide⟩, by decide⟩, by decide⟩, by decide⟩ rfl).1

/-! ## C8: the commit executor -/

/-- C8. When the menu returns, without error, the index of the candidate `cm`,
the next event of the run is the call of `git` with the arguments
`commit -m cm.Title -m cm.Description`, both fields unmodified, and this is the
only `git commit` call of the whole run. -/
theorem commit_executor (foldRune : Char → Char) (w : World)
    (gate stat diff log out : String) (cms : List CommitMessage) (idx : Nat)
    (cm : CommitMessage)
    (h : SelectOk foldRune w gate stat diff log out cms idx) (hi : cms[idx]? = some cm) :
    (∃ o e rest, (runMain foldRune w).2 =
      uptoAgent gate stat diff log out none ++
        Event.select cms idx none ::
        Event.exec "git" ["commit", "-m", cm.Title, "-m", cm.Description] o e :: rest) ∧
    ((runMain foldRune w).2.filter Event.isCommitCall).length = 1 := by
  have hs := runMain_shape foldRune w
  generalize runMain foldRune w = r at hs ⊢
  obtain ⟨st, tr⟩ := r
  cases hs
  all_goals simp only [SelectOk, AgentOk, LogOk, DiffOk, StatOk, GateOk] at *
  all_goals try casesm* _ ∧ _
  all_goals simp_all [uptoAgent, beforeAgent, statEvent, diffEvent, logEvent, agentEvent,
    commitEvent, Event.isCommitCall]
  rename_i hlen _ _ _ _ _ _ _ _ _ _ _
  rw [List.getElem?_eq_none hlen] at hi
  cases hi

/-- C8 at the example world: the candidate `feat: add X` / `Implements X.` is
committed with its title first and its description second. -/
theorem commit_executor_witness :
    ∃ o e rest, (runMain id demoWorld).2 =
      uptoAgent "diff --cached --stat" "diff --cached --stat" "diff --cached"
          "log -n 5 --pretty=oneline --abbrev-commit"
          "[\x7b\"title\":\"feat: add X\",\"description\":\"Implements X.\"\x7d]" none ++
        Event.select [⟨"feat: add X", "Implements X."⟩] 0 none ::
        Event.exec "git" ["commit", "-m", "feat: add X", "-m", "Implements X."] o e :: rest :=
  (commit_executor id demoWorld "diff --cached --stat" "diff --cached --stat"
    "diff --cached" "log -n 5 --pretty=oneline --abbrev-commit"
    "[\x7b\"title\":\"feat: add X\",\"description\":\"Implements X.\"\x7d]"
    [⟨"feat: add X", "Implements X."⟩] 0 ⟨"feat: add X", "Implements X."⟩
    ⟨⟨⟨⟨⟨⟨by decide, by decide⟩, by decide⟩, by decide⟩, by decide⟩, by decide⟩,
      by rfl, by decide, by decide⟩ rfl).1

/-! ## C9: the exit status -/

/-- C9. For every world whose menu keeps the library contract, the exit status
is 0 or 1; it is 0 exactly when the run ended at the "no staged changes" exit or
with a successful commit; it is 1 exactly when a subprocess returned an error,
the menu returned an error, the agent output did not decode, or it decoded to
the empty list; after a failed stage no further stage runs, and after a decode
failure or an empty list neither the menu nor `git commit` runs. -/
theorem exit_status (foldRune : Char → Char) (w : World) (hsel : SelectInBounds w) :
    ((runMain foldRune w).1 = 0 ∨ (runMain foldRune w).1 = 1) ∧
    ((runMain foldRune w).1 = 0 ↔
      EndsNothingStaged (runMain foldRune w).2 ∨ EndsCommitted (runMain foldRune w).2) ∧
    ((runMain foldRune w).1 = 1 ↔
      SubprocessFailed (runMain foldRune w).2 ∨ SelectionFailed (runMain foldRune w).2 ∨
      DecodeFailed foldRune (runMain foldRune w).2 ∨
      NoCandidates foldRune (runMain foldRune w).2) ∧
    quietAfterFailure (runMain foldRune w).2 = true ∧
    (DecodeFailed foldRune (runMain foldRune w).2 ∨
        NoCandidates foldRune (runMain foldRune w).2 →
      ∀ e ∈ (runMain foldRune w).2, e.isSelect = false ∧ e.isCommitCall = false) := by
  have hs := runMain_shape foldRune w
  generalize runMain foldRune w = r at hs ⊢
  obtain ⟨st, tr⟩ := r
  cases hs
  case decodeError g s d l o e ha hd =>
    simp [EndsNothingStaged, EndsCommitted, SubprocessFailed, SelectionFailed,
      DecodeFailed, NoCandidates, quietAfterFailure, lastTwo, statEvent, commitEvent,
      noStagedChangesLine, Event.failed, Event.isStage, Event.isSelect, Event.isCommitCall,
      uptoAgent, diffEvent, logEvent, agentEvent, jsonErrorLine, noCommitMessagesLine, *]
    exact Or.inl ⟨_, _, ⟨rfl, rfl⟩, e, hd⟩
  case noCandidates g s d l o ha hd =>
    simp [EndsNothingStaged, EndsCommitted, SubprocessFailed, SelectionFailed,
      DecodeFailed, NoCandidates, quietAfterFailure, lastTwo, statEvent, commitEvent,
      noStagedChangesLine, Event.failed, Event.isStage, Event.isSelect, Event.isCommitCall,
      uptoAgent, diffEvent, logEvent, agentEvent, jsonErrorLine, noCommitMessagesLine, *]
    exact Or.inr ⟨_, _, ⟨rfl, rfl⟩, hd⟩
  case indexPanic g s d l o cms idx hs hi =>
    exfalso
    have hlt := hsel (uptoAgent g s d l o none) cms (by rw [hs.2.2.2])
    rw [hs.2.2.2] at hlt
    simp at hi hlt
    omega
  all_goals simp only [SelectOk, AgentOk, LogOk, DiffOk, StatOk, GateOk] at *
  all_goals try casesm* _ ∧ _
  all_goals simp [EndsNothingStaged, EndsCommitted, SubprocessFailed, SelectionFailed,
      DecodeFailed, NoCandidates, quietAfterFailure, lastTwo, statEvent, commitEvent,
      noStagedChangesLine, Event.failed, Event.isStage, Event.isSelect, Event.isCommitCall,
      uptoAgent, diffEvent, logEvent, agentEvent, jsonErrorLine, noCommitMessagesLine, *]

/-- C9 at the example world, whose run ends with a successful commit. -/
theorem exit_status_witness :
    (runMain id demoWorld).1 = 0 ∨ (runMain id demoWorld).1 = 1 :=
  (exit_status id demoWorld (by
    intro tr items h
    cases items with
    | nil => simp [demoWorld] at h
    | cons a rest => simp [demoWorld])).1

/-! ## The filter of the menu -/

theorem startsWith_iff (s sub : List Char) :
    startsWith s sub = true ↔ ∃ post, s = sub ++ post := by
  induction sub generalizing s with
  | nil => simp [startsWith]
  | cons d sub ih =>
    cases s with
    | nil => simp [startsWith]
    | cons c s =>
      simp only [startsWith, Bool.and_eq_true, decide_eq_true_eq, ih, List.cons_append,
        List.cons.injEq]
      constructor
      · rintro ⟨rfl, post, rfl⟩
        exact ⟨post, rfl, rfl⟩
      · rintro ⟨post, rfl, rfl⟩
        exact ⟨rfl, post, rfl⟩

theorem containsChars_iff (s sub : List Char) :
    containsChars s sub = true ↔ IsSubstring sub s := by
  induction s with
  | nil =>
    simp only [containsChars, startsWith_iff, IsSubstring]
    constructor
    · rintro ⟨post, h⟩
      exact ⟨[], post, by simpa using h⟩
    · rintro ⟨pre, post, h⟩
      have h1 : pre = [] := by
        cases pre with
        | nil => rfl
        | cons a b => simp at h
      subst h1
      exact ⟨post, by simpa using h⟩
  | cons c s ih =>
    simp only [containsChars, Bool.or_eq_true, startsWith_iff, ih, IsSubstring]
    constructor
    · rintro (⟨post, h⟩ | ⟨pre, post, h⟩)
      · exact ⟨[], post, by simpa using h⟩
      · exact ⟨c :: pre, post, by simp [h]⟩
    · rintro ⟨pre, post, h⟩
      cases pre with
      | nil => exact Or.inl ⟨post, by simpa using h⟩
      | cons a pre =>
        simp only [List.cons_append, List.cons.injEq] at h
        exact Or.inr ⟨pre, post, h.2⟩

theorem toNat_ofNat_small (n : Nat) (h : n < 0xD800) : (Char.ofNat n).toNat = n := by
  have hv : n.isValidChar := Or.inl h
  simp only [Char.ofNat, hv, dite_true, Char.ofNatAux, Char.toNat]
  simp [UInt32.toNat]

theorem unicodeToLower_variant (tbl : List CaseRange) (c d : Char)
    (h : asciiLetterVariant c d) : unicodeToLower tbl c = unicodeToLower tbl d := by
  have key : ∀ x y : Char, 'a'.toNat ≤ x.toNat → x.toNat ≤ 'z'.toNat → y.toNat + 32 = x.toNat →
      unicodeToLower tbl x = unicodeToLower tbl y := by
    intro x y h1 h2 h3
    have ha : 'a'.toNat = 97 := by decide
    have hz : 'z'.toNat = 122 := by decide
    have hA : 'A'.toNat = 65 := by decide
    have hZ : 'Z'.toNat = 90 := by decide
    rw [ha] at h1
    rw [hz] at h2
    have hx1 : x.toNat ≤ 0x7F := by omega
    have hx2 : ¬ ('A'.toNat ≤ x.toNat ∧ x.toNat ≤ 'Z'.toNat) := by rw [hA, hZ]; omega
    have hy1 : y.toNat ≤ 0x7F := by omega
    have hy2 : 'A'.toNat ≤ y.toNat ∧ y.toNat ≤ 'Z'.toNat := by rw [hA, hZ]; omega
    simp only [unicodeToLower, hx1, hx2, hy1, hy2, if_true, if_false, and_self, h3]
    simp
  rcases h with h | ⟨h1, h2, h3⟩ | ⟨h1, h2, h3⟩
  · rw [h]
  · exact key c d h1 h2 h3
  · exact (key d c h1 h2 h3).symm

theorem map_lower_variant (tbl : List CaseRange) (a b : List Char)
    (h : List.Forall₂ asciiLetterVariant a b) :
    a.map (unicodeToLower tbl) = b.map (unicodeToLower tbl) := by
  induction h with
  | nil => rfl
  | cons hc _ ih => simp [unicodeToLower_variant tbl _ _ hc, ih]

theorem ToLower_variant (tbl : List CaseRange) (q q1 : String) (h : AsciiCaseVariant q q1) :
    ToLower tbl q = ToLower tbl q1 := by
  unfold ToLower
  rw [map_lower_variant tbl _ _ h]
theorem toUpper_variant (tbl : List CaseRange) (a : List Char)
    (h : ∀ c ∈ a, c.toNat ≤ 0x7F) :
    List.Forall₂ asciiLetterVariant a (a.map (unicodeToUpper tbl)) := by
  induction a with
  | nil => exact List.Forall₂.nil
  | cons c a ih =>
    refine List.Forall₂.cons ?_ (ih fun x hx => h x (List.mem_cons_of_mem _ hx))
    have hc := h c (List.mem_cons_self _ _)
    have ha : 'a'.toNat = 97 := by decide
    have hz : 'z'.toNat = 122 := by decide
    by_cases hl : 'a'.toNat ≤ c.toNat ∧ c.toNat ≤ 'z'.toNat
    · right; left
      refine ⟨hl.1, hl.2, ?_⟩
      rw [ha, hz] at hl
      simp only [unicodeToUpper, hc, if_true, ha, hz, hl, and_self]
      rw [toNat_ofNat_small _ (by omega)]
      omega
    · left
      simp only [unicodeToUpper, hc, if_true, hl, if_false]

/-! ## C6: what the filter matches -/

/-- C6, as stated, fails: the query `ab` is a substring of the title `a`
followed directly by the description `b`, yet the filter rejects the
candidate, because it puts a space between the two. -/
theorem filter_concat_counterexample :
    IsSubstring (ToLower [] "ab").data
      (ToLower [] ((⟨"a", "b"⟩ : CommitMessage).Title ++
        (⟨"a", "b"⟩ : CommitMessage).Description)).data ∧
    Searcher [] [⟨"a", "b"⟩] "ab" 0 = some false :=
  ⟨⟨[], [], by decide⟩, by decide⟩

/-- C6, amended. For a candidate at an index of the list the filter answers,
and it accepts exactly when the lower-cased query is a substring of the
lower-cased text made of the title, one space, and the description. -/
theorem filter_predicate (tbl : List CaseRange) (cms : List CommitMessage) (q : String)
    (i : Nat) (c : CommitMessage) (h : cms[i]? = some c) :
    (Searcher tbl cms q i = some true ↔
      IsSubstring (ToLower tbl q).data
        (ToLower tbl (c.Title ++ " " ++ c.Description)).data) ∧
    (Searcher tbl cms q i = some true ∨ Searcher tbl cms q i = some false) := by
  have hiff := containsChars_iff (ToLower tbl (c.Title ++ " " ++ c.Description)).data
    (ToLower tbl q).data
  simp only [Searcher, h, Option.some.injEq, Contains]
  refine ⟨hiff, ?_⟩
  cases containsChars (ToLower tbl (c.Title ++ " " ++ c.Description)).data
      (ToLower tbl q).data <;> simp

/-- C6, amended, at a candidate whose title and description are joined by the
space the query contains. -/
theorem filter_predicate_witness :
    Searcher [] [⟨"a", "b"⟩] "A B" 0 = some true :=
  (filter_predicate [] [⟨"a", "b"⟩] "A B" 0 ⟨"a", "b"⟩ rfl).1.mpr ⟨[], [], by decide⟩

/-! ## C7: case-insensitivity of the filter -/

/-- C7, as stated, fails for a query outside ASCII: with the case table entry
of the dotless i, the query `ı` upper-cased is `I`; the filter accepts the
candidate titled `ı` for the query `ı` and rejects it for the query `I`. -/
theorem filter_upper_counterexample :
    ToUpper [dotlessIRange] "ı" = "I" ∧
    Searcher [dotlessIRange] [⟨"ı", ""⟩] "ı" 0 = some true ∧
    Searcher [dotlessIRange] [⟨"ı", ""⟩] (ToUpper [dotlessIRange] "ı") 0 = some false :=
  ⟨by decide, by decide, by decide⟩

/-- C7, amended. Two queries that differ only in the case of ASCII letters, or
that lower-case to the same text, get the same answer from the filter for every
candidate; an all-ASCII query upper-cased is such a variant; and with
candidates titled `Fix bug` and `Add feature` (empty descriptions) the queries
`fix` and `FIX` both accept the first and reject the second. -/
theorem filter_case_insensitive (tbl : List CaseRange) (cms : List CommitMessage) (i : Nat)
    (q q1 : String) (h : AsciiCaseVariant q q1 ∨ ToLower tbl q1 = ToLower tbl q) :
    Searcher tbl cms q1 i = Searcher tbl cms q i ∧
    ((∀ c ∈ q.data, c.toNat ≤ 0x7F) → AsciiCaseVariant q (ToUpper tbl q)) ∧
    Searcher tbl [⟨"Fix bug", ""⟩, ⟨"Add feature", ""⟩] "fix" 0 = some true ∧
    Searcher tbl [⟨"Fix bug", ""⟩, ⟨"Add feature", ""⟩] "FIX" 0 = some true ∧
    Searcher tbl [⟨"Fix bug", ""⟩, ⟨"Add feature", ""⟩] "fix" 1 = some false ∧
    Searcher tbl [⟨"Fix bug", ""⟩, ⟨"Add feature", ""⟩] "FIX" 1 = some false := by
  have hl : ToLower tbl q1 = ToLower tbl q := by
    rcases h with h | h
    · exact (ToLower_variant tbl q q1 h).symm
    · exact h
  refine ⟨?_, fun ha => toUpper_variant tbl q.data ha, rfl, rfl, rfl, rfl⟩
  simp only [Searcher, hl]

/-- C7, amended, at the queries `fix` and `FIX`. -/
theorem filter_case_insensitive_witness :
    Searcher [] [⟨"Fix bug", ""⟩, ⟨"Add feature", ""⟩] "FIX" 0 =
      Searcher [] [⟨"Fix bug", ""⟩, ⟨"Add feature", ""⟩] "fix" 0 :=
  (filter_case_insensitive [] [⟨"Fix bug", ""⟩, ⟨"Add feature", ""⟩] 0 "fix" "FIX"
    (Or.inl (List.Forall₂.cons (Or.inr (Or.inl ⟨by decide, by decide, by decide⟩))
      (List.Forall₂.cons (Or.inr (Or.inl ⟨by decide, by decide, by decide⟩))
        (List.Forall₂.cons (Or.inr (Or.inl ⟨by decide, by decide, by decide⟩))
          List.Forall₂.nil))))).1

/-! ## Soundness of the parser with respect to the grammar -/

theorem isSpace_iff (c : Char) :
    isSpace c = true ↔ (c = ' ' ∨ c = '\t' ∨ c = '\r' ∨ c = '\n') := by
  simp [isSpace, or_assoc]

theorem isDigit_iff (c : Char) :
    isDigit c = true ↔ ('0'.toNat ≤ c.toNat ∧ c.toNat ≤ '9'.toNat) := by
  simp [isDigit]

theorem isWs_nil : IsWs [] := by
  intro c hc
  cases hc

theorem isWs_cons {c : Char} {ws : List Char} (hc : isSpace c = true) (h : IsWs ws) :
    IsWs (c :: ws) := by
  intro x hx
  rcases List.mem_cons.mp hx with rfl | hx
  · exact (isSpace_iff _).mp hc
  · exact h x hx

theorem isWs_append {a b : List Char} (ha : IsWs a) (hb : IsWs b) : IsWs (a ++ b) := by
  intro x hx
  rcases List.mem_append.mp hx with hx | hx
  · exact ha x hx
  · exact hb x hx

theorem skipSpace_spec (cs : List Char) : ∃ ws, IsWs ws ∧ cs = ws ++ skipSpace cs := by
  induction cs with
  | nil => exact ⟨[], isWs_nil, rfl⟩
  | cons c cs ih =>
    by_cases hc : isSpace c = true
    · obtain ⟨ws, hws, heq⟩ := ih
      refine ⟨c :: ws, isWs_cons hc hws, ?_⟩
      simp only [skipSpace, hc, if_true, List.cons_append]
      rw [← heq]
    · refine ⟨[], isWs_nil, ?_⟩
      simp [skipSpace, hc]

theorem isDigits_nil : IsDigits [] := by
  intro c hc
  cases hc

theorem isDigits_cons {c : Char} {ds : List Char} (hc : isDigit c = true) (h : IsDigits ds) :
    IsDigits (c :: ds) := by
  intro x hx
  rcases List.mem_cons.mp hx with rfl | hx
  · exact (isDigit_iff _).mp hc
  · exact h x hx

theorem skipDigits_spec (cs : List Char) : ∃ ds, IsDigits ds ∧ cs = ds ++ skipDigits cs := by
  induction cs with
  | nil => exact ⟨[], isDigits_nil, rfl⟩
  | cons c cs ih =>
    by_cases hc : isDigit c = true
    · obtain ⟨ds, hds, heq⟩ := ih
      refine ⟨c :: ds, isDigits_cons hc hds, ?_⟩
      simp only [skipDigits, hc, if_true, List.cons_append]
      rw [← heq]
    · refine ⟨[], isDigits_nil, ?_⟩
      simp [skipDigits, hc]

theorem parseExp_sound (cs rest : List Char) (h : parseExp cs = some rest) :
    ∃ t, JsonExp t ∧ cs = t ++ rest := by
  cases cs with
  | nil =>
    simp only [parseExp, Option.some.injEq] at h
    exact ⟨[], Or.inl rfl, by simp [h]⟩
  | cons c r =>
    simp only [parseExp] at h
    split at h
    · rename_i he
      cases r with
      | nil => simp at h
      | cons s r1 =>
        simp only at h
        split at h
        · rename_i hs
          cases r1 with
          | nil => simp at h
          | cons d r2 =>
            simp only at h
            split at h
            · rename_i hd
              obtain ⟨ds, hds, heq⟩ := skipDigits_spec r2
              simp only [Option.some.injEq] at h
              refine ⟨c :: s :: d :: ds, Or.inr ⟨c, [s], d, ds, he, ?_, isDigits_cons hd hds, rfl⟩, ?_⟩
              · rcases hs with hs | hs <;> simp [hs]
              · rw [← h]
                simp only [List.cons_append, List.cons.injEq, true_and]
                exact heq
            · simp at h
        · split at h
          · rename_i hd
            obtain ⟨ds, hds, heq⟩ := skipDigits_spec r1
            simp only [Option.some.injEq] at h
            refine ⟨c :: s :: ds, Or.inr ⟨c, [], s, ds, he, Or.inl rfl, isDigits_cons hd hds, rfl⟩, ?_⟩
            rw [← h]
            simp only [List.cons_append, List.cons.injEq, true_and]
            exact heq
          · simp at h
    · simp only [Option.some.injEq] at h
      exact ⟨[], Or.inl rfl, by simp [h]⟩

theorem parseFrac_sound (cs rest : List Char) (h : parseFrac cs = some rest) :
    ∃ f e, JsonFrac f ∧ JsonExp e ∧ cs = f ++ e ++ rest := by
  cases cs with
  | nil =>
    simp only [parseFrac, Option.some.injEq] at h
    exact ⟨[], [], Or.inl rfl, Or.inl rfl, by simp [h]⟩
  | cons c r =>
    simp only [parseFrac] at h
    split at h
    · rename_i hc
      cases r with
      | nil => simp at h
      | cons d r1 =>
        simp only at h
        split at h
        · rename_i hd
          obtain ⟨ds, hds, heq⟩ := skipDigits_spec r1
          obtain ⟨e, he, heq2⟩ := parseExp_sound _ _ h
          refine ⟨'.' :: d :: ds, e, Or.inr ⟨d, ds, isDigits_cons hd hds, rfl⟩, he, ?_⟩
          rw [hc, heq, heq2]
          simp
        · simp at h
    · obtain ⟨e, he, heq2⟩ := parseExp_sound _ _ h
      exact ⟨[], e, Or.inl rfl, he, by simpa using heq2⟩

theorem parseInt_sound (cs rest : List Char) (h : parseInt cs = some rest) :
    ∃ i f e, JsonInt i ∧ JsonFrac f ∧ JsonExp e ∧ cs = i ++ f ++ e ++ rest := by
  cases cs with
  | nil => simp [parseInt] at h
  | cons c r =>
    simp only [parseInt] at h
    split at h
    · rename_i hc
      obtain ⟨f, e, hf, he, heq⟩ := parseFrac_sound _ _ h
      refine ⟨['0'], f, e, Or.inl rfl, hf, he, ?_⟩
      rw [hc, heq]
      simp
    · rename_i hc
      split at h
      · rename_i hd
        obtain ⟨ds, hds, heq⟩ := skipDigits_spec r
        obtain ⟨f, e, hf, he, heq2⟩ := parseFrac_sound _ _ h
        have hd1 := (isDigit_iff c).mp hd
        have h0 : '0'.toNat = 48 := by decide
        have h1 : '1'.toNat = 49 := by decide
        have hne : c.toNat ≠ 48 := by
          intro hx
          apply hc
          have : c = Char.ofNat c.toNat := (Char.ofNat_toNat c).symm
          rw [this, hx]
        refine ⟨c :: ds, f, e, Or.inr ⟨c, ds, ?_, hd1.2, hds, rfl⟩, hf, he, ?_⟩
        · rw [h1]
          rw [h0] at hd1
          omega
        · rw [heq, heq2]
          simp
      · simp at h

theorem parseNumber_sound (cs rest : List Char) (h : parseNumber cs = some rest) :
    ∃ t, JsonNumber t ∧ cs = t ++ rest := by
  cases cs with
  | nil => simp [parseNumber] at h
  | cons c r =>
    simp only [parseNumber] at h
    split at h
    · rename_i hc
      obtain ⟨i, f, e, hi, hf, he, heq⟩ := parseInt_sound _ _ h
      refine ⟨['-'] ++ i ++ f ++ e, ⟨['-'], i, f, e, Or.inr rfl, hi, hf, he, rfl⟩, ?_⟩
      rw [hc, heq]
      simp
    · obtain ⟨i, f, e, hi, hf, he, heq⟩ := parseInt_sound _ _ h
      refine ⟨[] ++ i ++ f ++ e, ⟨[], i, f, e, Or.inl rfl, hi, hf, he, rfl⟩, ?_⟩
      rw [heq]
      simp

theorem dropLit_sound (lit cs rest : List Char) (h : dropLit lit cs = some rest) :
    cs = lit ++ rest := by
  induction lit generalizing cs with
  | nil =>
    simp only [dropLit, Option.some.injEq] at h
    simp [h]
  | cons l lit ih =>
    cases cs with
    | nil => simp [dropLit] at h
    | cons c cs =>
      simp only [dropLit] at h
      split at h
      · rename_i hl
        rw [hl, ih cs h]
        rfl
      · simp at h
theorem consChar_some {c : Char} {r : Option (List Char × List Char)} {s rest : List Char}
    (h : consChar c r = some (s, rest)) : ∃ s1, r = some (s1, rest) ∧ s = c :: s1 := by
  cases r with
  | none => simp [consChar] at h
  | some p =>
    obtain ⟨s1, r1⟩ := p
    simp only [consChar, Option.some.injEq, Prod.mk.injEq] at h
    exact ⟨s1, by rw [h.2], h.1.symm⟩

theorem flushPending_some {p : Option Nat} {r : Option (List Char × List Char)}
    {s rest : List Char} (h : flushPending p r = some (s, rest)) :
    ∃ s1, r = some (s1, rest) := by
  cases p with
  | none => exact ⟨s, h⟩
  | some hi =>
    obtain ⟨s1, h1, _⟩ := consChar_some h
    exact ⟨s1, h1⟩

theorem hexVal_some {c : Char} {x : Nat} (h : hexVal c = some x) : IsHexDigit c := by
  unfold hexVal at h
  split at h
  · rename_i h1
    exact Or.inl h1
  · split at h
    · rename_i h1
      exact Or.inr (Or.inl h1)
    · split at h
      · rename_i h1
        exact Or.inr (Or.inr h1)
      · simp at h

theorem getu4_some {a b c d : Char} {x : Nat} (h : getu4 a b c d = some x) :
    IsHexDigit a ∧ IsHexDigit b ∧ IsHexDigit c ∧ IsHexDigit d := by
  unfold getu4 at h
  cases ha : hexVal a <;> cases hb : hexVal b <;> cases hc : hexVal c <;>
    cases hd : hexVal d <;> simp [ha, hb, hc, hd] at h
  exact ⟨hexVal_some ha, hexVal_some hb, hexVal_some hc, hexVal_some hd⟩

theorem simpleEscape_some {e ch : Char} (h : simpleEscape e = some ch) :
    e = '"' ∨ e = '\\' ∨ e = '/' ∨ e = 'b' ∨ e = 'f' ∨ e = 'n' ∨ e = 'r' ∨ e = 't' := by
  unfold simpleEscape at h
  by_cases h1 : e = '"'
  · exact Or.inl h1
  by_cases h2 : e = '\\'
  · exact Or.inr (Or.inl h2)
  by_cases h3 : e = '/'
  · exact Or.inr (Or.inr (Or.inl h3))
  by_cases h4 : e = 'b'
  · exact Or.inr (Or.inr (Or.inr (Or.inl h4)))
  by_cases h5 : e = 'f'
  · exact Or.inr (Or.inr (Or.inr (Or.inr (Or.inl h5))))
  by_cases h6 : e = 'n'
  · exact Or.inr (Or.inr (Or.inr (Or.inr (Or.inr (Or.inl h6)))))
  by_cases h7 : e = 'r'
  · exact Or.inr (Or.inr (Or.inr (Or.inr (Or.inr (Or.inr (Or.inl h7))))))
  by_cases h8 : e = 't'
  · exact Or.inr (Or.inr (Or.inr (Or.inr (Or.inr (Or.inr (Or.inr h8))))))
  simp [h1, h2, h3, h4, h5, h6, h7, h8] at h

theorem parseStringBody_sound (n : Nat) :
    ∀ (cs : List Char) (p : Option Nat) (s rest : List Char), cs.length ≤ n →
      parseStringBody p cs = some (s, rest) →
      ∃ body, JsonChars body ∧ cs = body ++ '"' :: rest := by
  induction n with
  | zero =>
    intro cs p s rest hn h
    cases cs with
    | nil => rw [parseStringBody.eq_def] at h; simp at h
    | cons c r => simp at hn
  | succ n ih =>
    intro cs p s rest hn h
    cases cs with
    | nil => rw [parseStringBody.eq_def] at h; simp at h
    | cons c r =>
      simp only [List.length_cons, Nat.add_le_add_iff_right] at hn
      rw [parseStringBody.eq_def] at h
      simp only at h
      split at h
      · rename_i hq
        obtain ⟨s1, h1⟩ := flushPending_some h
        simp only [Option.some.injEq, Prod.mk.injEq] at h1
        exact ⟨[], JsonChars.nil, by rw [hq, h1.2]; rfl⟩
      · rename_i hq
        split at h
        · rename_i hb
          cases r with
          | nil => simp at h
          | cons e r1 =>
            simp only at h
            split at h
            · rename_i hu
              match r1, h, hn with
              | h1 :: h2 :: h3 :: h4 :: r2, h, hn =>
                simp only at h
                cases hg : getu4 h1 h2 h3 h4 with
                | none => simp [hg] at h
                | some rr =>
                  obtain ⟨x1, x2, x3, x4⟩ := getu4_some hg
                  simp only [hg] at h
                  have hlen : r2.length ≤ n := by
                    simp only [List.length_cons] at hn
                    omega
                  have fin : ∀ q s1, parseStringBody q r2 = some (s1, rest) →
                      ∃ body, JsonChars body ∧
                        c :: e :: h1 :: h2 :: h3 :: h4 :: r2 = body ++ '"' :: rest := by
                    intro q s1 hp
                    obtain ⟨body, hb1, hb2⟩ := ih r2 q s1 rest hlen hp
                    refine ⟨'\\' :: 'u' :: h1 :: h2 :: h3 :: h4 :: body,
                      JsonChars.unicode h1 h2 h3 h4 body x1 x2 x3 x4 hb1, ?_⟩
                    rw [hb, hu, hb2]
                    rfl
                  split at h
                  · cases p with
                    | none =>
                      obtain ⟨s1, hs1, _⟩ := consChar_some h
                      exact fin _ _ hs1
                    | some hi =>
                      obtain ⟨s1, hs1, _⟩ := consChar_some h
                      exact fin _ _ hs1
                  · split at h
                    · obtain ⟨s1, hs1⟩ := flushPending_some h
                      exact fin _ _ hs1
                    · obtain ⟨s1, hs1⟩ := flushPending_some h
                      obtain ⟨s2, hs2, _⟩ := consChar_some hs1
                      exact fin _ _ hs2
              | [], h, _ => simp at h
              | [_], h, _ => simp at h
              | [_, _], h, _ => simp at h
              | [_, _, _], h, _ => simp at h
            · cases hse : simpleEscape e with
              | none => simp [hse] at h
              | some ch =>
                simp only [hse] at h
                obtain ⟨s1, hs1⟩ := flushPending_some h
                obtain ⟨s2, hs2, _⟩ := consChar_some hs1
                have hlen : r1.length ≤ n := by
                  simp only [List.length_cons] at hn
                  omega
                obtain ⟨body, hb1, hb2⟩ := ih r1 none s2 rest hlen hs2
                refine ⟨'\\' :: e :: body, JsonChars.escape e body (simpleEscape_some hse) hb1, ?_⟩
                rw [hb, hb2]
                rfl
        · rename_i hb
          split at h
          · simp at h
          · rename_i hc
            obtain ⟨s1, hs1⟩ := flushPending_some h
            obtain ⟨s2, hs2, _⟩ := consChar_some hs1
            obtain ⟨body, hb1, hb2⟩ := ih r none s2 rest hn hs2
            refine ⟨c :: body, JsonChars.plain c body hq hb (by omega) hb1, ?_⟩
            rw [hb2]
            rfl
theorem jsonElements_addWs {ws t : List Char} (hws : IsWs ws) (h : JsonElements t) :
    JsonElements (ws ++ t) := by
  cases h with
  | one ws1 v ws2 h1 hv h2 =>
    have := JsonElements.one (ws ++ ws1) v ws2 (isWs_append hws h1) hv h2
    simpa [List.append_assoc] using this
  | more ws1 v ws2 rest h1 hv h2 hr =>
    have := JsonElements.more (ws ++ ws1) v ws2 rest (isWs_append hws h1) hv h2 hr
    simpa [List.append_assoc] using this

theorem jsonMembers_addWs {ws t : List Char} (hws : IsWs ws) (h : JsonMembers t) :
    JsonMembers (ws ++ t) := by
  cases h with
  | one ws1 k ws2 ws3 v ws4 h1 hk h2 h3 hv h4 =>
    have := JsonMembers.one (ws ++ ws1) k ws2 ws3 v ws4 (isWs_append hws h1) hk h2 h3 hv h4
    simpa [List.append_assoc] using this
  | more ws1 k ws2 ws3 v ws4 rest h1 hk h2 h3 hv h4 hr =>
    have := JsonMembers.more (ws ++ ws1) k ws2 ws3 v ws4 rest (isWs_append hws h1) hk h2 h3
      hv h4 hr
    simpa [List.append_assoc] using this

theorem parseValue_sound_step (fuel : Nat)
    (ihE : ∀ d cs vs rest, parseElements fuel d cs = some (vs, rest) →
      ∃ t, JsonElements t ∧ cs = t ++ ']' :: rest)
    (ihM : ∀ d cs ms rest, parseMembers fuel d cs = some (ms, rest) →
      ∃ t, JsonMembers t ∧ cs = t ++ '\x7d' :: rest)
    (d : Nat) (cs : List Char) (v : JValue) (rest : List Char)
    (h : parseValue (fuel + 1) d cs = some (v, rest)) :
    ∃ t, JsonValue t ∧ cs = t ++ rest := by
  cases cs with
  | nil => simp [parseValue] at h
  | cons c r =>
    simp only [parseValue] at h
    split at h
    · rename_i hc
      cases hp : parseStringBody none r with
      | none => simp [hp] at h
      | some p =>
        obtain ⟨s, r1⟩ := p
        simp only [hp, Option.some.injEq, Prod.mk.injEq] at h
        obtain ⟨body, hb1, hb2⟩ := parseStringBody_sound r.length r none s r1 (Nat.le_refl _) hp
        refine ⟨'"' :: body ++ ['"'], JsonValue.string _ ⟨body, hb1, rfl⟩, ?_⟩
        rw [hc, hb2, ← h.2]
        simp
    · split at h
      · rename_i hc
        split at h
        · simp at h
        · obtain ⟨ws, hws, heq⟩ := skipSpace_spec r
          cases hsk : skipSpace r with
          | nil => simp [hsk] at h
          | cons c1 r1 =>
            simp only [hsk] at h
            rw [hsk] at heq
            split at h
            · rename_i hc1
              simp only [Option.some.injEq, Prod.mk.injEq] at h
              refine ⟨'[' :: ws ++ [']'], JsonValue.emptyArray ws hws, ?_⟩
              rw [hc, heq, hc1, h.2]
              simp
            · cases hpe : parseElements fuel (d + 1) (c1 :: r1) with
              | none => simp [hpe] at h
              | some p =>
                obtain ⟨vs, r2⟩ := p
                simp only [hpe, Option.some.injEq, Prod.mk.injEq] at h
                obtain ⟨t, ht1, ht2⟩ := ihE _ _ _ _ hpe
                refine ⟨'[' :: (ws ++ t) ++ [']'],
                  JsonValue.array _ (jsonElements_addWs hws ht1), ?_⟩
                rw [hc, heq, ht2, h.2]
                simp
      · split at h
        · rename_i hc
          split at h
          · simp at h
          · obtain ⟨ws, hws, heq⟩ := skipSpace_spec r
            cases hsk : skipSpace r with
            | nil => simp [hsk] at h
            | cons c1 r1 =>
              simp only [hsk] at h
              rw [hsk] at heq
              split at h
              · rename_i hc1
                simp only [Option.some.injEq, Prod.mk.injEq] at h
                refine ⟨'\x7b' :: ws ++ ['\x7d'], JsonValue.emptyObject ws hws, ?_⟩
                rw [hc, heq, hc1, h.2]
                simp
              · cases hpe : parseMembers fuel (d + 1) (c1 :: r1) with
                | none => simp [hpe] at h
                | some p =>
                  obtain ⟨ms, r2⟩ := p
                  simp only [hpe, Option.some.injEq, Prod.mk.injEq] at h
                  obtain ⟨t, ht1, ht2⟩ := ihM _ _ _ _ hpe
                  refine ⟨'\x7b' :: (ws ++ t) ++ ['\x7d'],
                    JsonValue.object _ (jsonMembers_addWs hws ht1), ?_⟩
                  rw [hc, heq, ht2, h.2]
                  simp
        · split at h
          · rename_i hc
            cases hd : dropLit ['u', 'l', 'l'] r with
            | none => simp [hd] at h
            | some r1 =>
              simp only [hd, Option.some.injEq, Prod.mk.injEq] at h
              refine ⟨['n', 'u', 'l', 'l'], JsonValue.null, ?_⟩
              rw [hc, dropLit_sound _ _ _ hd, h.2]
              rfl
          · split at h
            · rename_i hc
              cases hd : dropLit ['r', 'u', 'e'] r with
              | none => simp [hd] at h
              | some r1 =>
                simp only [hd, Option.some.injEq, Prod.mk.injEq] at h
                refine ⟨['t', 'r', 'u', 'e'], JsonValue.true, ?_⟩
                rw [hc, dropLit_sound _ _ _ hd, h.2]
                rfl
            · split at h
              · rename_i hc
                cases hd : dropLit ['a', 'l', 's', 'e'] r with
                | none => simp [hd] at h
                | some r1 =>
                  simp only [hd, Option.some.injEq, Prod.mk.injEq] at h
                  refine ⟨['f', 'a', 'l', 's', 'e'], JsonValue.false, ?_⟩
                  rw [hc, dropLit_sound _ _ _ hd, h.2]
                  rfl
              · cases hd : parseNumber (c :: r) with
                | none => simp [hd] at h
                | some r1 =>
                  simp only [hd, Option.some.injEq, Prod.mk.injEq] at h
                  obtain ⟨t, ht1, ht2⟩ := parseNumber_sound _ _ hd
                  refine ⟨t, JsonValue.number t ht1, ?_⟩
                  rw [ht2, h.2]
theorem parseElements_sound_step (fuel : Nat)
    (ihV : ∀ d cs v rest, parseValue fuel d cs = some (v, rest) →
      ∃ t, JsonValue t ∧ cs = t ++ rest)
    (ihE : ∀ d cs vs rest, parseElements fuel d cs = some (vs, rest) →
      ∃ t, JsonElements t ∧ cs = t ++ ']' :: rest)
    (d : Nat) (cs : List Char) (vs : List JValue) (rest : List Char)
    (h : parseElements (fuel + 1) d cs = some (vs, rest)) :
    ∃ t, JsonElements t ∧ cs = t ++ ']' :: rest := by
  simp only [parseElements] at h
  cases hv : parseValue fuel d cs with
  | none => simp [hv] at h
  | some p =>
    obtain ⟨v, r⟩ := p
    simp only [hv] at h
    obtain ⟨t, ht1, ht2⟩ := ihV _ _ _ _ hv
    obtain ⟨ws, hws, heq⟩ := skipSpace_spec r
    cases hsk : skipSpace r with
    | nil => simp [hsk] at h
    | cons c1 r1 =>
      simp only [hsk] at h
      rw [hsk] at heq
      split at h
      · rename_i hc1
        obtain ⟨ws1, hws1, heq1⟩ := skipSpace_spec r1
        cases hpe : parseElements fuel d (skipSpace r1) with
        | none => simp [hpe] at h
        | some p =>
          obtain ⟨vs1, r2⟩ := p
          simp only [hpe, Option.some.injEq, Prod.mk.injEq] at h
          obtain ⟨t1, ht3, ht4⟩ := ihE _ _ _ _ hpe
          refine ⟨[] ++ t ++ ws ++ ',' :: (ws1 ++ t1),
            JsonElements.more [] t ws (ws1 ++ t1) isWs_nil ht1 hws
              (jsonElements_addWs hws1 ht3), ?_⟩
          rw [ht2, heq, hc1, heq1, ht4, h.2]
          simp
      · split at h
        · rename_i hc1
          simp only [Option.some.injEq, Prod.mk.injEq] at h
          refine ⟨[] ++ t ++ ws, JsonElements.one [] t ws isWs_nil ht1 hws, ?_⟩
          rw [ht2, heq, hc1, h.2]
          simp
        · simp at h

theorem parseMembers_sound_step (fuel : Nat)
    (ihV : ∀ d cs v rest, parseValue fuel d cs = some (v, rest) →
      ∃ t, JsonValue t ∧ cs = t ++ rest)
    (ihM : ∀ d cs ms rest, parseMembers fuel d cs = some (ms, rest) →
      ∃ t, JsonMembers t ∧ cs = t ++ '\x7d' :: rest)
    (d : Nat) (cs : List Char) (ms : List (List Char × JValue)) (rest : List Char)
    (h : parseMembers (fuel + 1) d cs = some (ms, rest)) :
    ∃ t, JsonMembers t ∧ cs = t ++ '\x7d' :: rest := by
  cases cs with
  | nil => simp [parseMembers] at h
  | cons c r =>
    simp only [parseMembers] at h
    split at h
    · rename_i hc
      cases hp : parseStringBody none r with
      | none => simp [hp] at h
      | some p =>
        obtain ⟨key, r1⟩ := p
        simp only [hp] at h
        obtain ⟨body, hb1, hb2⟩ :=
          parseStringBody_sound r.length r none key r1 (Nat.le_refl _) hp
        have hk : JsonString ('"' :: body ++ ['"']) := ⟨body, hb1, rfl⟩
        obtain ⟨ws2, hws2, heq2⟩ := skipSpace_spec r1
        cases hsk : skipSpace r1 with
        | nil => simp [hsk] at h
        | cons c1 r2 =>
          simp only [hsk] at h
          rw [hsk] at heq2
          split at h
          · rename_i hc1
            obtain ⟨ws3, hws3, heq3⟩ := skipSpace_spec r2
            cases hv : parseValue fuel d (skipSpace r2) with
            | none => simp [hv] at h
            | some p =>
              obtain ⟨v, r3⟩ := p
              simp only [hv] at h
              obtain ⟨t, ht1, ht2⟩ := ihV _ _ _ _ hv
              obtain ⟨ws4, hws4, heq4⟩ := skipSpace_spec r3
              cases hsk3 : skipSpace r3 with
              | nil => simp [hsk3] at h
              | cons c2 r4 =>
                simp only [hsk3] at h
                rw [hsk3] at heq4
                split at h
                · rename_i hc2
                  obtain ⟨ws5, hws5, heq5⟩ := skipSpace_spec r4
                  cases hpm : parseMembers fuel d (skipSpace r4) with
                  | none => simp [hpm] at h
                  | some p =>
                    obtain ⟨ms1, r5⟩ := p
                    simp only [hpm, Option.some.injEq, Prod.mk.injEq] at h
                    obtain ⟨t1, ht3, ht4⟩ := ihM _ _ _ _ hpm
                    refine ⟨[] ++ ('"' :: body ++ ['"']) ++ ws2 ++ ':' :: ws3 ++ t ++ ws4 ++
                        ',' :: (ws5 ++ t1),
                      JsonMembers.more [] _ ws2 ws3 t ws4 (ws5 ++ t1) isWs_nil hk hws2 hws3 ht1
                        hws4 (jsonMembers_addWs hws5 ht3), ?_⟩
                    rw [hc, hb2, heq2, hc1, heq3, ht2, heq4, hc2, heq5, ht4, h.2]
                    simp
                · split at h
                  · rename_i hc2
                    simp only [Option.some.injEq, Prod.mk.injEq] at h
                    refine ⟨[] ++ ('"' :: body ++ ['"']) ++ ws2 ++ ':' :: ws3 ++ t ++ ws4,
                      JsonMembers.one [] _ ws2 ws3 t ws4 isWs_nil hk hws2 hws3 ht1 hws4, ?_⟩
                    rw [hc, hb2, heq2, hc1, heq3, ht2, heq4, hc2, h.2]
                    simp
                  · simp at h
          · simp at h
    · simp at h

theorem parse_sound (fuel : Nat) :
    (∀ d cs v rest, parseValue fuel d cs = some (v, rest) →
      ∃ t, JsonValue t ∧ cs = t ++ rest) ∧
    (∀ d cs vs rest, parseElements fuel d cs = some (vs, rest) →
      ∃ t, JsonElements t ∧ cs = t ++ ']' :: rest) ∧
    (∀ d cs ms rest, parseMembers fuel d cs = some (ms, rest) →
      ∃ t, JsonMembers t ∧ cs = t ++ '\x7d' :: rest) := by
  induction fuel with
  | zero =>
    refine ⟨?_, ?_, ?_⟩
    · intro d cs v rest h
      simp [parseValue] at h
    · intro d cs vs rest h
      simp [parseElements] at h
    · intro d cs ms rest h
      simp [parseMembers] at h
  | succ fuel ih =>
    obtain ⟨ihV, ihE, ihM⟩ := ih
    exact ⟨parseValue_sound_step fuel ihE ihM, parseElements_sound_step fuel ihV ihE,
      parseMembers_sound_step fuel ihV ihM⟩

theorem parseJSON_sound (s : String) (v : JValue) (h : parseJSON s.data = some v) :
    WellFormedJSON s := by
  unfold parseJSON at h
  obtain ⟨ws1, hws1, heq1⟩ := skipSpace_spec s.data
  generalize hp : parseValue _ 0 (skipSpace s.data) = res at h
  cases res with
  | none => simp at h
  | some p =>
    obtain ⟨v1, rest⟩ := p
    simp only at h
    split at h
    · rename_i hr
      obtain ⟨t, ht1, ht2⟩ := (parse_sound _).1 _ _ _ _ hp
      obtain ⟨ws2, hws2, heq2⟩ := skipSpace_spec rest
      rw [hr] at heq2
      refine ⟨ws1, t, ws2, hws1, ht1, hws2, ?_⟩
      rw [heq1, ht2, heq2]
      simp
    · simp at h

theorem Unmarshal_malformed (foldRune : Char → Char) (s : String) (h : ¬ WellFormedJSON s) :
    Unmarshal foldRune s = Except.error JsonError.syntaxError := by
  unfold Unmarshal
  cases hp : parseJSON s.data with
  | none => rfl
  | some v => exact absurd (parseJSON_sound s v hp) h

/-! ## C5: malformed agent output -/

theorem jsonValue_first (v : List Char) (h : JsonValue v) :
    ∃ c rest, v = c :: rest ∧
      (c = 'n' ∨ c = 't' ∨ c = 'f' ∨ c = '"' ∨ c = '[' ∨ c = '\x7b' ∨ c = '-' ∨
        ('0'.toNat ≤ c.toNat ∧ c.toNat ≤ '9'.toNat)) := by
  cases h with
  | null => exact ⟨_, _, rfl, by simp⟩
  | true => exact ⟨_, _, rfl, by simp⟩
  | false => exact ⟨_, _, rfl, by simp⟩
  | number s h =>
    obtain ⟨sign, int, frac, exp, hs, hi, _, _, rfl⟩ := h
    rcases hs with rfl | rfl
    · rcases hi with rfl | ⟨d, ds, h1, h2, _, rfl⟩
      · exact ⟨'0', _, rfl, by decide⟩
      · refine ⟨d, _, rfl, ?_⟩
        have h0 : '0'.toNat = 48 := by decide
        have h1' : '1'.toNat = 49 := by decide
        rw [h1'] at h1
        rw [h0]
        simp only [h2, and_true]
        right; right; right; right; right; right; right
        omega
    · exact ⟨'-', _, rfl, by simp⟩
  | string s h =>
    obtain ⟨body, _, rfl⟩ := h
    exact ⟨'"', _, rfl, by simp⟩
  | emptyArray ws h => exact ⟨'[', _, rfl, by simp⟩
  | array els h => exact ⟨'[', _, rfl, by simp⟩
  | emptyObject ws h => exact ⟨'\x7b', _, rfl, by simp⟩
  | object ms h => exact ⟨'\x7b', _, rfl, by simp⟩

theorem not_wellFormed_of_first (s : String) (c : Char) (rest : List Char)
    (hs : s.data = c :: rest)
    (hc : ¬ (c = ' ' ∨ c = '\t' ∨ c = '\r' ∨ c = '\n'))
    (hv : ¬ (c = 'n' ∨ c = 't' ∨ c = 'f' ∨ c = '"' ∨ c = '[' ∨ c = '\x7b' ∨ c = '-' ∨
        ('0'.toNat ≤ c.toNat ∧ c.toNat ≤ '9'.toNat))) :
    ¬ WellFormedJSON s := by
  rintro ⟨ws1, v, ws2, h1, h2, _, heq⟩
  rw [hs] at heq
  obtain ⟨c1, r1, rfl, hc1⟩ := jsonValue_first v h2
  cases ws1 with
  | nil =>
    simp only [List.nil_append, List.cons_append, List.cons.injEq] at heq
    rw [← heq.1] at hc1
    exact hv hc1
  | cons w ws1 =>
    simp only [List.cons_append, List.cons.injEq] at heq
    have := h1 w (List.mem_cons_self _ _)
    rw [← heq.1] at this
    exact hc this

/-! ## UTF-8: decoding an encoding -/

theorem fin_ofNat_val (k : Nat) (h : k < 256) : (Fin.ofNat k : Byte).val = k := by
  simp [Fin.ofNat, Nat.mod_eq_of_lt h]

theorem DecodeRune_encodeRune (c : Char) (rest : Bytes) :
    DecodeRune (encodeRune c ++ rest) = (c, (encodeRune c).length) := by
  have hv := c.valid
  simp only [UInt32.isValidChar, Nat.isValidChar] at hv
  have hn : c.toNat = c.val.toNat := rfl
  have key : ∀ m, m = c.toNat → Char.ofNat m = c := fun m h => h ▸ Char.ofNat_toNat c
  unfold encodeRune
  by_cases h1 : c.toNat < 0x80
  · simp only [h1, if_true, List.cons_append, List.nil_append, DecodeRune,
      fin_ofNat_val _ (show c.toNat < 256 by omega), Char.ofNat_toNat, List.length_singleton]
  · by_cases h2 : c.toNat < 0x800
    · have e0 := fin_ofNat_val (0xC0 + c.toNat / 64) (by omega)
      have e1 := fin_ofNat_val (0x80 + c.toNat % 64) (by omega)
      have a0 : ¬ (0xC0 + c.toNat / 64 < 0x80) := by omega
      have a1 : 0xC2 ≤ 0xC0 + c.toNat / 64 ∧ 0xC0 + c.toNat / 64 ≤ 0xDF := by omega
      have a2 : 0x80 ≤ 0x80 + c.toNat % 64 ∧ 0x80 + c.toNat % 64 ≤ 0xBF := by omega
      simp only [h1, h2, if_true, if_false, List.cons_append, List.nil_append, DecodeRune,
        inRange, e0, e1, a0, a1, a2, decide_True, List.length_cons, List.length_nil,
        Prod.mk.injEq, and_true]
      apply key
      omega
    · by_cases h3 : c.toNat < 0x10000
      · have e0 := fin_ofNat_val (0xE0 + c.toNat / 4096) (by omega)
        have e1 := fin_ofNat_val (0x80 + c.toNat / 64 % 64) (by omega)
        have e2 := fin_ofNat_val (0x80 + c.toNat % 64) (by omega)
        have a0 : ¬ (0xE0 + c.toNat / 4096 < 0x80) := by omega
        have a1 : ¬ (0xC2 ≤ 0xE0 + c.toNat / 4096 ∧ 0xE0 + c.toNat / 4096 ≤ 0xDF) := by omega
        have a2 : 0xE0 ≤ 0xE0 + c.toNat / 4096 ∧ 0xE0 + c.toNat / 4096 ≤ 0xEF := by omega
        have a3 : (if 0xE0 + c.toNat / 4096 = 0xE0 then 0xA0 else 0x80) ≤
            0x80 + c.toNat / 64 % 64 ∧ 0x80 + c.toNat / 64 % 64 ≤
            (if 0xE0 + c.toNat / 4096 = 0xED then 0x9F else 0xBF) := by
          split <;> split <;> omega
        have a4 : 0x80 ≤ 0x80 + c.toNat % 64 ∧ 0x80 + c.toNat % 64 ≤ 0xBF := by omega
        simp only [h1, h2, h3, if_true, if_false, List.cons_append, List.nil_append, DecodeRune,
          inRange, e0, e1, e2, a0, a1, a2, a3, a4, decide_True, decide_False, List.length_cons,
          List.length_nil, Prod.mk.injEq, and_true, and_self, Bool.false_eq_true]
        apply key
        omega
      · have e0 := fin_ofNat_val (0xF0 + c.toNat / 262144) (by omega)
        have e1 := fin_ofNat_val (0x80 + c.toNat / 4096 % 64) (by omega)
        have e2 := fin_ofNat_val (0x80 + c.toNat / 64 % 64) (by omega)
        have e3 := fin_ofNat_val (0x80 + c.toNat % 64) (by omega)
        have a0 : ¬ (0xF0 + c.toNat / 262144 < 0x80) := by omega
        have a1 : ¬ (0xC2 ≤ 0xF0 + c.toNat / 262144 ∧ 0xF0 + c.toNat / 262144 ≤ 0xDF) := by
          omega
        have a2 : ¬ (0xE0 ≤ 0xF0 + c.toNat / 262144 ∧ 0xF0 + c.toNat / 262144 ≤ 0xEF) := by
          omega
        have a3 : 0xF0 ≤ 0xF0 + c.toNat / 262144 ∧ 0xF0 + c.toNat / 262144 ≤ 0xF4 := by omega
        have a4 : (if 0xF0 + c.toNat / 262144 = 0xF0 then 0x90 else 0x80) ≤
            0x80 + c.toNat / 4096 % 64 ∧ 0x80 + c.toNat / 4096 % 64 ≤
            (if 0xF0 + c.toNat / 262144 = 0xF4 then 0x8F else 0xBF) := by
          split <;> split <;> omega
        have a5 : 0x80 ≤ 0x80 + c.toNat / 64 % 64 ∧ 0x80 + c.toNat / 64 % 64 ≤ 0xBF := by omega
        have a6 : 0x80 ≤ 0x80 + c.toNat % 64 ∧ 0x80 + c.toNat % 64 ≤ 0xBF := by omega
        simp only [h1, h2, h3, if_true, if_false, List.cons_append, List.nil_append, DecodeRune,
          inRange, e0, e1, e2, e3, a0, a1, a2, a3, a4, a5, a6, decide_True, decide_False,
          List.length_cons, List.length_nil, Prod.mk.injEq, and_true, and_self,
          Bool.false_eq_true]
        apply key
        omega

theorem encodeRune_length (c : Char) : 1 ≤ (encodeRune c).length := by
  unfold encodeRune
  split
  · simp
  · split
    · simp
    · split <;> simp

theorem decodeRunes_encodeRunes (cs : List Char) :
    ∀ fuel, (encodeRunes cs).length ≤ fuel → decodeRunes fuel (encodeRunes cs) = cs := by
  induction cs with
  | nil =>
    intro fuel _
    cases fuel <;> rfl
  | cons c cs ih =>
    intro fuel hf
    have hl := encodeRune_length c
    simp only [encodeRunes, List.length_append] at hf
    obtain ⟨g, rfl⟩ : ∃ g, fuel = g + 1 := ⟨fuel - 1, by omega⟩
    obtain ⟨b0, r, hr⟩ : ∃ b0 r, encodeRune c = b0 :: r := by
      cases h : encodeRune c with
      | nil => simp [h] at hl
      | cons b0 r => exact ⟨b0, r, rfl⟩
    have hd := DecodeRune_encodeRune c (encodeRunes cs)
    rw [hr, List.cons_append] at hd
    have hstep : decodeRunes (g + 1) (b0 :: (r ++ encodeRunes cs)) =
        (DecodeRune (b0 :: (r ++ encodeRunes cs))).1 ::
          decodeRunes g ((r ++ encodeRunes cs).drop
            ((DecodeRune (b0 :: (r ++ encodeRunes cs))).2 - 1)) := rfl
    have hgoal : decodeRunes (g + 1) (b0 :: (r ++ encodeRunes cs)) = c :: cs := by
      rw [hstep, hd]
      simp only [List.length_cons, Nat.add_sub_cancel, List.drop_left]
      rw [ih g (by rw [hr] at hf; simp only [List.length_cons] at hf; omega)]
    simp only [encodeRunes, hr, List.cons_append]
    exact hgoal

theorem decodeText_utf8 (s : String) : decodeText (utf8 s) = s := by
  unfold decodeText utf8
  rw [decodeRunes_encodeRunes s.data _ (Nat.le_refl _)]

/-! ## C5: malformed agent output, on the bytes -/

theorem encodeRune_ne_ff (c : Char) : (255 : Byte) ∉ encodeRune c := by
  have hv := c.valid
  simp only [UInt32.isValidChar, Nat.isValidChar] at hv
  have hn : c.toNat = c.val.toNat := rfl
  have key : ∀ k : Nat, k < 255 → (255 : Byte) ≠ Fin.ofNat k := by
    intro k hk h
    have := congrArg Fin.val h
    rw [fin_ofNat_val k (by omega)] at this
    have h255 : ((255 : Byte)).val = 255 := rfl
    omega
  unfold encodeRune
  split_ifs <;> simp only [List.mem_cons, List.mem_singleton, List.not_mem_nil, or_false, not_or]
  · exact key _ (by omega)
  · exact ⟨key _ (by omega), key _ (by omega)⟩
  · exact ⟨key _ (by omega), key _ (by omega), key _ (by omega)⟩
  · exact ⟨key _ (by omega), key _ (by omega), key _ (by omega), key _ (by omega)⟩

theorem utf8_ne_ff (s : String) : (255 : Byte) ∉ utf8 s := by
  unfold utf8
  induction s.data with
  | nil => simp [encodeRunes]
  | cons c cs ih =>
    simp only [encodeRunes, List.mem_append, not_or]
    exact ⟨encodeRune_ne_ff c, ih⟩

theorem nonUtf8Answer_not_json : ¬ WellFormedJSONBytes nonUtf8Answer := by
  rintro ⟨s, hs, _⟩
  have h := utf8_ne_ff s
  rw [hs] at h
  exact h (by simp [nonUtf8Answer])

theorem raw_run_malformed (foldRune : Char → Char) (w : Raw.World)
    (gate stat diff log out : Bytes) (h : Raw.AgentOk w gate stat diff log out)
    (hd : UnmarshalBytes foldRune out = Except.error JsonError.syntaxError) :
    Raw.runMain foldRune w =
      (1, Raw.uptoAgent gate stat diff log out ++
        [Raw.Event.println [Raw.Operand.str (utf8 "Error parsing JSON:"),
          Raw.Operand.jsonErr JsonError.syntaxError]]) := by
  obtain ⟨h0, hg, h1, h2, h3, h4⟩ := h
  simp only [Raw.statEvent, Raw.diffEvent, Raw.logEvent, Raw.expectedPrompt] at h0 h1 h2 h3 h4
  simp only [Raw.runMain, Raw.main, Raw.checkForStagedChanges, Raw.extendPromptWithCodeChanges,
    Raw.extendPromptWithCommitHistory, Raw.promptAIAgent, Raw.runCommandAndGetOutput,
    bind, Raw.Prog.bind, pure, Raw.Println, Raw.osExit, List.nil_append, List.cons_append,
    List.singleton_append, h0, hg, if_false, h1, h2, h3, h4, sprintf_template, gpt4o, hd,
    exitStatus, Raw.uptoAgent, Raw.statEvent, Raw.diffEvent, Raw.logEvent, Raw.agentEvent,
    Raw.expectedPrompt]

theorem raw_run_commits (foldRune : Char → Char) (w : Raw.World)
    (gate stat diff log out cout : Bytes) (cms : List CommitMessage) (idx : Nat)
    (cm : CommitMessage) (h : Raw.AgentOk w gate stat diff log out)
    (hd : UnmarshalBytes foldRune out = Except.ok cms) (hne : cms.length ≠ 0)
    (hs : w.selectRun (Raw.uptoAgent gate stat diff log out) cms = (idx, none))
    (hi : cms[idx]? = some cm)
    (hc : w.run (Raw.uptoAgent gate stat diff log out ++ [Raw.Event.select cms idx none]) "git"
      [utf8 "commit", utf8 "-m", utf8 cm.Title, utf8 "-m", utf8 cm.Description] = (cout, none)) :
    Raw.runMain foldRune w =
      (0, Raw.uptoAgent gate stat diff log out ++
        [Raw.Event.select cms idx none,
          Raw.Event.exec "git"
            [utf8 "commit", utf8 "-m", utf8 cm.Title, utf8 "-m", utf8 cm.Description] cout none,
          Raw.Event.println [Raw.Operand.str cout]]) := by
  obtain ⟨h0, hg, h1, h2, h3, h4⟩ := h
  simp only [Raw.uptoAgent, Raw.statEvent, Raw.diffEvent, Raw.logEvent, Raw.agentEvent,
    Raw.expectedPrompt, List.cons_append, List.nil_append] at h0 h1 h2 h3 h4 hs hc
  simp only [Raw.runMain, Raw.main, Raw.checkForStagedChanges, Raw.extendPromptWithCodeChanges,
    Raw.extendPromptWithCommitHistory, Raw.promptAIAgent, Raw.runCommandAndGetOutput,
    Raw.selectCommitMessage, Raw.selectPromptRun, Raw.gitCommit,
    bind, Raw.Prog.bind, pure, Raw.Println, Raw.osExit, List.nil_append, List.cons_append,
    List.singleton_append, h0, hg, if_false, h1, h2, h3, h4, sprintf_template, gpt4o, hd, hne,
    hs, hi, hc, exitStatus, Raw.uptoAgent, Raw.statEvent, Raw.diffEvent, Raw.logEvent,
    Raw.agentEvent, Raw.expectedPrompt]

theorem malformed_examples (foldRune : Char → Char) :
    Unmarshal foldRune "[\x7b\"title\": \"fix: a\", \"description\": \"b\"\x7d, \x7b\"title\": \"fi" =
      Except.error JsonError.syntaxError ∧
    Unmarshal foldRune "```json\n[\x7b\"title\": \"fix: a\", \"description\": \"b\"\x7d]\n```" =
      Except.error JsonError.syntaxError ∧
    Unmarshal foldRune "Here you go: [\x7b\"title\": \"fix: a\", \"description\": \"b\"\x7d]" =
      Except.error JsonError.syntaxError ∧
    Unmarshal foldRune "[\x7b\"title\": \"fix: a\", \"description\": \"b\"\x7d] Done." =
      Except.error JsonError.syntaxError :=
  ⟨rfl, rfl, rfl, rfl⟩

theorem nonUtf8Answer_decodes :
    UnmarshalBytes id nonUtf8Answer = Except.ok [⟨"a\uFFFDb", ""⟩] := by
  rfl

theorem agentOk_nonUtf8AnswerWorld :
    Raw.AgentOk nonUtf8AnswerWorld (utf8 "ok") (utf8 "ok") (utf8 "ok") (utf8 "ok")
      nonUtf8Answer :=
  ⟨rfl, by decide, rfl, rfl, rfl, rfl⟩

/-- C5, counterexample. An agent output with the byte 0xFF inside a string
literal is not UTF-8 and so not a JSON text, yet it decodes to one commit
message whose title has U+FFFD in place of the byte, and the run goes on to the
menu and to `git commit` and ends with status 0. -/
theorem non_utf8_output_counterexample :
    ¬ WellFormedJSONBytes nonUtf8Answer ∧
    Raw.AgentOk nonUtf8AnswerWorld (utf8 "ok") (utf8 "ok") (utf8 "ok") (utf8 "ok")
      nonUtf8Answer ∧
    UnmarshalBytes id nonUtf8Answer = Except.ok [⟨"a\uFFFDb", ""⟩] ∧
    Raw.runMain id nonUtf8AnswerWorld =
      (0, Raw.uptoAgent (utf8 "ok") (utf8 "ok") (utf8 "ok") (utf8 "ok") nonUtf8Answer ++
        [Raw.Event.select [⟨"a\uFFFDb", ""⟩] 0 none,
          Raw.Event.exec "git" [utf8 "commit", utf8 "-m", utf8 "a\uFFFDb", utf8 "-m", utf8 ""]
            (utf8 "ok") none,
          Raw.Event.println [Raw.Operand.str (utf8 "ok")]]) ∧
    ¬ (Raw.runMain id nonUtf8AnswerWorld =
      (1, Raw.uptoAgent (utf8 "ok") (utf8 "ok") (utf8 "ok") (utf8 "ok") nonUtf8Answer ++
        [Raw.Event.println [Raw.Operand.str (utf8 "Error parsing JSON:"),
          Raw.Operand.jsonErr JsonError.syntaxError]])) := by
  have hrun := raw_run_commits id nonUtf8AnswerWorld (utf8 "ok") (utf8 "ok") (utf8 "ok")
    (utf8 "ok") nonUtf8Answer (utf8 "ok") [⟨"a\uFFFDb", ""⟩] 0 ⟨"a\uFFFDb", ""⟩
    agentOk_nonUtf8AnswerWorld nonUtf8Answer_decodes (by decide) rfl rfl rfl
  refine ⟨nonUtf8Answer_not_json, agentOk_nonUtf8AnswerWorld, nonUtf8Answer_decodes, hrun, ?_⟩
  rw [hrun]
  intro h
  exact absurd (congrArg Prod.fst h) (by decide)

/-- C5. When the agent call succeeds and its output, with every byte that is
not UTF-8 read as U+FFFD, is not well-formed JSON, the run ends right after the
agent call with the "Error parsing JSON" line for a syntax error and exit
status 1, and neither the menu nor `git commit` runs.  Every output that is the
UTF-8 encoding of a text that is not well-formed JSON is such an output: a
truncated array, an array inside a markdown fence, an array after a sentence
and an array before one all decode to a syntax error. -/
theorem malformed_output (foldRune : Char → Char) (w : Raw.World)
    (gate stat diff log out : Bytes) (h : Raw.AgentOk w gate stat diff log out)
    (hm : ¬ WellFormedJSON (decodeText out)) :
    Raw.runMain foldRune w =
      (1, Raw.uptoAgent gate stat diff log out ++
        [Raw.Event.println [Raw.Operand.str (utf8 "Error parsing JSON:"),
          Raw.Operand.jsonErr JsonError.syntaxError]]) ∧
    (∀ e ∈ (Raw.runMain foldRune w).2, e.isSelect = false ∧ e.isCommitCall = false) ∧
    (∀ s : String, decodeText (utf8 s) = s) ∧
    (∀ s : String, ¬ WellFormedJSON s →
      UnmarshalBytes foldRune (utf8 s) = Except.error JsonError.syntaxError) ∧
    UnmarshalBytes foldRune
        (utf8 "[\x7b\"title\": \"fix: a\", \"description\": \"b\"\x7d, \x7b\"title\": \"fi") =
      Except.error JsonError.syntaxError ∧
    UnmarshalBytes foldRune
        (utf8 "```json\n[\x7b\"title\": \"fix: a\", \"description\": \"b\"\x7d]\n```") =
      Except.error JsonError.syntaxError ∧
    UnmarshalBytes foldRune
        (utf8 "Here you go: [\x7b\"title\": \"fix: a\", \"description\": \"b\"\x7d]") =
      Except.error JsonError.syntaxError ∧
    UnmarshalBytes foldRune
        (utf8 "[\x7b\"title\": \"fix: a\", \"description\": \"b\"\x7d] Done.") =
      Except.error JsonError.syntaxError := by
  have key := raw_run_malformed foldRune w gate stat diff log out h
    (Unmarshal_malformed foldRune _ hm)
  have hex := malformed_examples foldRune
  refine ⟨key, ?_, decodeText_utf8, ?_, ?_, ?_, ?_, ?_⟩
  · rw [key]
    intro e he
    simp only [Raw.uptoAgent, Raw.statEvent, Raw.diffEvent, Raw.logEvent, Raw.agentEvent,
      List.cons_append, List.nil_append, List.mem_cons, List.mem_singleton,
      List.not_mem_nil, or_false] at he
    rcases he with he | he | he | he | he | he <;> subst he <;>
      simp [Raw.Event.isSelect, Raw.Event.isCommitCall,
        (by decide : utf8 "diff" ≠ utf8 "commit"), (by decide : utf8 "log" ≠ utf8 "commit")]
  · intro s hs
    rw [UnmarshalBytes, decodeText_utf8]
    exact Unmarshal_malformed foldRune s hs
  · rw [UnmarshalBytes, decodeText_utf8]
    exact hex.1
  · rw [UnmarshalBytes, decodeText_utf8]
    exact hex.2.1
  · rw [UnmarshalBytes, decodeText_utf8]
    exact hex.2.2.1
  · rw [UnmarshalBytes, decodeText_utf8]
    exact hex.2.2.2

/-- C5 at a world whose agent wraps its answer in a markdown fence. -/
theorem malformed_output_witness :
    Raw.runMain id fencedAnswerWorld =
      (1, Raw.uptoAgent (utf8 "ok") (utf8 "ok") (utf8 "ok") (utf8 "ok")
          (utf8 "```json\n[]\n```") ++
        [Raw.Event.println [Raw.Operand.str (utf8 "Error parsing JSON:"),
          Raw.Operand.jsonErr JsonError.syntaxError]]) :=
  (malformed_output id fencedAnswerWorld (utf8 "ok") (utf8 "ok") (utf8 "ok") (utf8 "ok")
    (utf8 "```json\n[]\n```") ⟨rfl, by decide, rfl, rfl, rfl, rfl⟩
    (by
      rw [decodeText_utf8]
      exact not_wellFormed_of_first _ '`' "``json\n[]\n```".data rfl (by decide)
        (by decide))).1

/-! ## Decoding the encodings of a list of commit messages -/

theorem hexVal_lower : ∀ n, n < 16 → hexVal (hexDigitLower n) = some n := by
  decide

theorem hexVal_upper : ∀ n, n < 16 → hexVal (hexDigitUpper n) = some n := by
  decide

theorem hexVal_of {n : Nat} {c : Char} (h : IsHexOf n c) : hexVal c = some n := by
  obtain ⟨hn, hc | hc⟩ := h
  · rw [hc]
    exact hexVal_lower n hn
  · rw [hc]
    exact hexVal_upper n hn

theorem getu4_of {n : Nat} {h1 h2 h3 h4 : Char} (h : IsHex4 n h1 h2 h3 h4) :
    getu4 h1 h2 h3 h4 = some n := by
  obtain ⟨hn, x1, x2, x3, x4⟩ := h
  simp only [getu4, hexVal_of x1, hexVal_of x2, hexVal_of x3, hexVal_of x4, Option.some.injEq]
  omega

theorem char_not_surrogate (c : Char) : ¬ (0xD800 ≤ c.toNat ∧ c.toNat < 0xE000) := by
  have h := c.valid
  simp only [UInt32.isValidChar, Nat.isValidChar] at h
  have : c.toNat = c.val.toNat := rfl
  omega

theorem char_lt (c : Char) : c.toNat < 0x110000 := by
  have h := c.valid
  simp only [UInt32.isValidChar, Nat.isValidChar] at h
  have : c.toNat = c.val.toNat := rfl
  omega

theorem parseStringBody_plain (c : Char) (rest : List Char) (hq : c ≠ '"') (hb : c ≠ '\\')
    (hc : 0x20 ≤ c.toNat) :
    parseStringBody none (c :: rest) = consChar c (parseStringBody none rest) := by
  rw [parseStringBody.eq_def]
  simp only [hq, hb, if_false, flushPending]
  have : ¬ c.toNat < 0x20 := by omega
  simp only [this, if_false]

theorem parseStringBody_escape (e ch : Char) (rest : List Char) (hu : e ≠ 'u')
    (he : simpleEscape e = some ch) :
    parseStringBody none ('\\' :: e :: rest) = consChar ch (parseStringBody none rest) := by
  rw [parseStringBody.eq_def]
  have h1 : ('\\' : Char) ≠ '"' := by decide
  simp only [h1, if_false, if_true, hu, he, flushPending]

theorem parseStringBody_unicode (c h1 h2 h3 h4 : Char) (rest : List Char)
    (h : IsHex4 c.toNat h1 h2 h3 h4) :
    parseStringBody none ('\\' :: 'u' :: h1 :: h2 :: h3 :: h4 :: rest) =
      consChar c (parseStringBody none rest) := by
  rw [parseStringBody.eq_def]
  have hq : ('\\' : Char) ≠ '"' := by decide
  have hs := char_not_surrogate c
  have hs1 : ¬ (0xDC00 ≤ c.toNat ∧ c.toNat < 0xE000) := by omega
  have hs2 : ¬ (0xD800 ≤ c.toNat ∧ c.toNat < 0xDC00) := by omega
  simp only [hq, if_false, if_true, getu4_of h, hs1, hs2, flushPending, Char.ofNat_toNat]

theorem parseStringBody_pair (c h1 h2 h3 h4 k1 k2 k3 k4 : Char) (rest : List Char)
    (hc : 0x10000 ≤ c.toNat)
    (hh : IsHex4 (0xD800 + (c.toNat - 0x10000) / 1024) h1 h2 h3 h4)
    (hl : IsHex4 (0xDC00 + (c.toNat - 0x10000) % 1024) k1 k2 k3 k4) :
    parseStringBody none
        ('\\' :: 'u' :: h1 :: h2 :: h3 :: h4 :: '\\' :: 'u' :: k1 :: k2 :: k3 :: k4 :: rest) =
      consChar c (parseStringBody none rest) := by
  have hq : ('\\' : Char) ≠ '"' := by decide
  have hlt := char_lt c
  have a1 : ¬ (0xDC00 ≤ 0xD800 + (c.toNat - 0x10000) / 1024 ∧
      0xD800 + (c.toNat - 0x10000) / 1024 < 0xE000) := by omega
  have a2 : 0xD800 ≤ 0xD800 + (c.toNat - 0x10000) / 1024 ∧
      0xD800 + (c.toNat - 0x10000) / 1024 < 0xDC00 := by omega
  have b1 : 0xDC00 ≤ 0xDC00 + (c.toNat - 0x10000) % 1024 ∧
      0xDC00 + (c.toNat - 0x10000) % 1024 < 0xE000 := by omega
  have hval : (0xD800 + (c.toNat - 0x10000) / 1024 - 0xD800) * 1024 +
      (0xDC00 + (c.toNat - 0x10000) % 1024 - 0xDC00) + 0x10000 = c.toNat := by omega
  rw [parseStringBody.eq_def]
  simp only [hq, if_false, if_true, getu4_of hh, a1, a2, flushPending, and_self]
  rw [parseStringBody.eq_def]
  simp only [hq, if_false, if_true, getu4_of hl, b1, hval, Char.ofNat_toNat, and_self]

theorem simpleEscape_ne_u (e ch : Char) (h : simpleEscape e = some ch) : e ≠ 'u' := by
  intro hu
  rw [hu] at h
  have hn : simpleEscape 'u' = none := by decide
  rw [hn] at h
  cases h

theorem parseStringBody_encChar (c : Char) (e rest : List Char) (h : EncChar c e) :
    parseStringBody none (e ++ rest) = consChar c (parseStringBody none rest) := by
  cases h with
  | plain _ hq hb hc => exact parseStringBody_plain c rest hq hb hc
  | quote => exact parseStringBody_escape '"' '"' rest (by decide) (by decide)
  | backslash => exact parseStringBody_escape '\\' '\\' rest (by decide) (by decide)
  | slash => exact parseStringBody_escape '/' '/' rest (by decide) (by decide)
  | backspace => exact parseStringBody_escape 'b' _ rest (by decide) (by decide)
  | formFeed => exact parseStringBody_escape 'f' _ rest (by decide) (by decide)
  | lineFeed => exact parseStringBody_escape 'n' _ rest (by decide) (by decide)
  | carriageReturn => exact parseStringBody_escape 'r' _ rest (by decide) (by decide)
  | tab => exact parseStringBody_escape 't' _ rest (by decide) (by decide)
  | unicode _ h1 h2 h3 h4 h => exact parseStringBody_unicode c h1 h2 h3 h4 rest h
  | pair _ h1 h2 h3 h4 k1 k2 k3 k4 hc hh hl =>
    exact parseStringBody_pair c h1 h2 h3 h4 k1 k2 k3 k4 rest hc hh hl

theorem parseStringBody_encChars (s body rest : List Char) (h : EncChars s body) :
    parseStringBody none (body ++ '"' :: rest) = some (s, rest) := by
  induction h with
  | nil =>
    rw [parseStringBody.eq_def]
    simp [flushPending]
  | cons c e s t hc _ ih =>
    rw [List.append_assoc, parseStringBody_encChar c e _ hc, ih]
    rfl
theorem skipSpace_ws_cons (ws : List Char) (c : Char) (r : List Char) (hws : IsWs ws)
    (hc : isSpace c = false) : skipSpace (ws ++ c :: r) = c :: r := by
  induction ws with
  | nil => simp [skipSpace, hc]
  | cons w ws ih =>
    have hw : isSpace w = true := (isSpace_iff w).mpr (hws w (List.mem_cons_self _ _))
    simp only [List.cons_append, skipSpace, hw, if_true]
    exact ih fun x hx => hws x (List.mem_cons_of_mem _ hx)

theorem skipSpace_ws (ws : List Char) (hws : IsWs ws) : skipSpace ws = [] := by
  induction ws with
  | nil => rfl
  | cons w ws ih =>
    have hw : isSpace w = true := (isSpace_iff w).mpr (hws w (List.mem_cons_self _ _))
    simp only [skipSpace, hw, if_true]
    exact ih fun x hx => hws x (List.mem_cons_of_mem _ hx)

theorem parseValue_string (f d : Nat) (s body rest : List Char) (h : EncChars s body) :
    parseValue (f + 1) d ('"' :: (body ++ '"' :: rest)) = some (JValue.str s, rest) := by
  simp only [parseValue, if_true, parseStringBody_encChars s body rest h]

theorem parseMembers_last (f d : Nat) (name value kb vb ws1 ws2 ws3 : List Char)
    (R : List Char) (hk : EncChars name kb) (hv : EncChars value vb) (h1 : IsWs ws1)
    (h2 : IsWs ws2) (h3 : IsWs ws3) :
    parseMembers (f + 2) d
        ('"' :: (kb ++ '"' :: (ws1 ++ ':' :: (ws2 ++ '"' :: (vb ++ '"' ::
          (ws3 ++ '\x7d' :: R)))))) =
      some ([(name, JValue.str value)], R) := by
  have c1 : ('\x7d' : Char) ≠ ',' := by decide
  simp only [parseMembers, if_true, parseStringBody_encChars name kb _ hk,
    skipSpace_ws_cons ws1 ':' _ h1 (by decide), skipSpace_ws_cons ws2 '"' _ h2 (by decide),
    parseValue_string f d value vb _ hv, skipSpace_ws_cons ws3 '\x7d' R h3 (by decide), c1,
    if_false]

theorem parseMembers_more (f d : Nat) (name value kb vb ws1 ws2 ws3 : List Char)
    (R : List Char) (ms : List (List Char × JValue)) (r5 : List Char) (hk : EncChars name kb)
    (hv : EncChars value vb) (h1 : IsWs ws1) (h2 : IsWs ws2) (h3 : IsWs ws3)
    (hr : parseMembers (f + 1) d (skipSpace R) = some (ms, r5)) :
    parseMembers (f + 2) d
        ('"' :: (kb ++ '"' :: (ws1 ++ ':' :: (ws2 ++ '"' :: (vb ++ '"' ::
          (ws3 ++ ',' :: R)))))) =
      some ((name, JValue.str value) :: ms, r5) := by
  simp only [parseMembers, if_true, parseStringBody_encChars name kb _ hk,
    skipSpace_ws_cons ws1 ':' _ h1 (by decide), skipSpace_ws_cons ws2 '"' _ h2 (by decide),
    parseValue_string f d value vb _ hv, skipSpace_ws_cons ws3 ',' R h3 (by decide), hr]

theorem encMembers_quote {kvs : List (String × String)} {t : List Char}
    (h : EncMembers kvs t) : ∃ r, t = '"' :: r := by
  cases h with
  | one name value m ws hm hws =>
    obtain ⟨k, ws1, ws2, v, ⟨kb, _, rfl⟩, _, _, _, rfl⟩ := hm
    exact ⟨_, rfl⟩
  | more name value rest m ws1 ws2 t hm h1 h2 hr =>
    obtain ⟨k, ws1, ws2, v, ⟨kb, _, rfl⟩, _, _, _, rfl⟩ := hm
    exact ⟨_, rfl⟩

theorem parseMembers_enc (kvs : List (String × String)) (t : List Char)
    (h : EncMembers kvs t) :
    ∀ (f d : Nat) (rest : List Char), kvs.length + 1 ≤ f →
      parseMembers f d (t ++ '\x7d' :: rest) =
        some (kvs.map fun p => (p.1.data, JValue.str p.2.data), rest) := by
  induction h with
  | one name value m ws hm hws =>
    intro f d rest hf
    obtain ⟨k, ws1, ws2, v, ⟨kb, hkb, rfl⟩, h1, h2, ⟨vb, hvb, rfl⟩, rfl⟩ := hm
    obtain ⟨g, rfl⟩ : ∃ g, f = g + 2 := ⟨f - 2, by simp at hf; omega⟩
    have := parseMembers_last g d name.data value.data kb vb ws1 ws2 ws rest hkb hvb
      h1 h2 hws
    simp only [List.append_assoc, List.cons_append, List.nil_append] at this ⊢
    rw [this]
    simp
  | more name value kvs m ws1 ws2 t hm h1 h2 hr ih =>
    intro f d rest hf
    obtain ⟨k, wsa, wsb, v, ⟨kb, hkb, rfl⟩, ha, hb, ⟨vb, hvb, rfl⟩, rfl⟩ := hm
    obtain ⟨g, rfl⟩ : ∃ g, f = g + 2 := ⟨f - 2, by simp at hf; omega⟩
    obtain ⟨r, rfl⟩ := encMembers_quote hr
    have hsk : skipSpace (ws2 ++ '"' :: (r ++ '\x7d' :: rest)) = '"' :: (r ++ '\x7d' :: rest) :=
      skipSpace_ws_cons ws2 '"' _ h2 (by decide)
    have hi := ih (g + 1) d rest (by simp at hf ⊢; omega)
    simp only [List.cons_append] at hi
    rw [← hsk] at hi
    have := parseMembers_more g d name.data value.data kb vb wsa wsb ws1
      (ws2 ++ '"' :: (r ++ '\x7d' :: rest)) _ _ hkb hvb ha hb h1 hi
    simp only [List.append_assoc, List.cons_append, List.nil_append] at this ⊢
    rw [this]
    simp

theorem decode_title_first (foldRune : Char → Char) (T D : String) :
    decodeElement foldRune (JValue.obj
      [("title".data, JValue.str T.data), ("description".data, JValue.str D.data)]) =
      (⟨T, D⟩, false) := by
  have h1 : "description".data ≠ "title".data := by decide
  simp [decodeElement, decodeMembers, storeString, h1]

theorem decode_description_first (foldRune : Char → Char) (T D : String) :
    decodeElement foldRune (JValue.obj
      [("description".data, JValue.str D.data), ("title".data, JValue.str T.data)]) =
      (⟨T, D⟩, false) := by
  have h1 : "description".data ≠ "title".data := by decide
  simp [decodeElement, decodeMembers, storeString, h1]

theorem parseValue_object (foldRune : Char → Char) (cm : CommitMessage) (t : List Char)
    (h : EncObject cm t) (f d : Nat) (rest : List Char) (hd : d < maxNestingDepth) :
    ∃ v, parseValue (f + 4) d (t ++ rest) = some (v, rest) ∧
      decodeElement foldRune v = (cm, false) := by
  obtain ⟨ws, ms, hws, hms, rfl⟩ := h
  have hd1 : ¬ d ≥ maxNestingDepth := by omega
  have hq : ∀ kvs, EncMembers kvs ms →
      parseValue (f + 4) d ('\x7b' :: ws ++ ms ++ ['\x7d'] ++ rest) =
        some (JValue.obj (kvs.map fun p => (p.1.data, JValue.str p.2.data)), rest) ∨
      kvs.length + 1 > f + 3 := by
    intro kvs hk
    by_cases hl : kvs.length + 1 ≤ f + 3
    · left
      obtain ⟨r, rfl⟩ := encMembers_quote hk
      have hp := parseMembers_enc kvs _ hk (f + 3) (d + 1) rest hl
      simp only [List.cons_append, List.append_assoc, List.nil_append] at hp ⊢
      have hsk : skipSpace (ws ++ '"' :: (r ++ '\x7d' :: rest)) = '"' :: (r ++ '\x7d' :: rest) :=
        skipSpace_ws_cons ws '"' _ hws (by decide)
      have c1 : ('\x7b' : Char) ≠ '"' := by decide
      have c2 : ('\x7b' : Char) ≠ '[' := by decide
      have c3 : ('"' : Char) ≠ '\x7d' := by decide
      simp only [parseValue, c1, c2, c3, if_false, if_true, hd1, hsk, hp]
    · right
      omega
  rcases hms with hm | hm
  · rcases hq _ hm with h1 | h1
    · exact ⟨_, h1, decode_title_first foldRune cm.Title cm.Description⟩
    · simp at h1
  · rcases hq _ hm with h1 | h1
    · exact ⟨_, h1, decode_description_first foldRune cm.Title cm.Description⟩
    · simp at h1
theorem encObject_brace {cm : CommitMessage} {t : List Char} (h : EncObject cm t) :
    ∃ r, t = '\x7b' :: r := by
  obtain ⟨ws, ms, _, _, rfl⟩ := h
  exact ⟨_, rfl⟩

theorem encElements_length_le {cms : List CommitMessage} {t : List Char}
    (h : EncElements cms t) : cms.length ≤ t.length := by
  induction h with
  | one cm ws1 o ws2 h1 ho h2 =>
    obtain ⟨r, rfl⟩ := encObject_brace ho
    simp
    omega
  | more cm cms ws1 o ws2 t h1 ho h2 hr ih =>
    obtain ⟨r, rfl⟩ := encObject_brace ho
    simp
    omega

theorem encElements_skip {cms : List CommitMessage} {t : List Char} (h : EncElements cms t)
    (R : List Char) : ∃ r, skipSpace (t ++ R) = '\x7b' :: r := by
  cases h with
  | one cm ws1 o ws2 h1 ho h2 =>
    obtain ⟨r, rfl⟩ := encObject_brace ho
    refine ⟨r ++ (ws2 ++ R), ?_⟩
    simp only [List.append_assoc, List.cons_append]
    exact skipSpace_ws_cons ws1 '\x7b' _ h1 (by decide)
  | more cm cms ws1 o ws2 t h1 ho h2 hr =>
    obtain ⟨r, rfl⟩ := encObject_brace ho
    refine ⟨r ++ (ws2 ++ (',' :: t ++ R)), ?_⟩
    simp only [List.append_assoc, List.cons_append]
    exact skipSpace_ws_cons ws1 '\x7b' _ h1 (by decide)

theorem parseElements_more (f d : Nat) (cs r r1 r2 : List Char) (v : JValue)
    (vs : List JValue) (hv : parseValue f d cs = some (v, r)) (hs : skipSpace r = ',' :: r1)
    (hr : parseElements f d (skipSpace r1) = some (vs, r2)) :
    parseElements (f + 1) d cs = some (v :: vs, r2) := by
  simp only [parseElements, hv, hs, if_true, hr]

theorem parseElements_enc (foldRune : Char → Char) (cms : List CommitMessage) (t : List Char)
    (h : EncElements cms t) :
    ∀ (f d : Nat) (rest : List Char), cms.length + 4 ≤ f → d < maxNestingDepth →
      ∃ vs, parseElements f d (skipSpace (t ++ ']' :: rest)) = some (vs, rest) ∧
        vs.map (decodeElement foldRune) = cms.map fun cm => (cm, false) := by
  induction h with
  | one cm ws1 o ws2 h1 ho h2 =>
    intro f d rest hf hd
    obtain ⟨g, rfl⟩ : ∃ g, f = g + 5 := ⟨f - 5, by simp at hf; omega⟩
    obtain ⟨v, hv1, hv2⟩ := parseValue_object foldRune cm o ho g d (ws2 ++ ']' :: rest) hd
    obtain ⟨r, hr⟩ := encObject_brace ho
    have hsk : skipSpace (ws1 ++ o ++ ws2 ++ ']' :: rest) = o ++ (ws2 ++ ']' :: rest) := by
      rw [hr]
      simp only [List.append_assoc, List.cons_append]
      exact skipSpace_ws_cons ws1 '\x7b' _ h1 (by decide)
    refine ⟨[v], ?_, by simp [hv2]⟩
    rw [hsk]
    have c1 : (']' : Char) ≠ ',' := by decide
    simp only [parseElements, hv1, skipSpace_ws_cons ws2 ']' rest h2 (by decide), c1, if_false,
      if_true]
  | more cm cms ws1 o ws2 t h1 ho h2 hr ih =>
    intro f d rest hf hd
    obtain ⟨g, rfl⟩ : ∃ g, f = g + 5 := ⟨f - 5, by simp at hf; omega⟩
    obtain ⟨v, hv1, hv2⟩ :=
      parseValue_object foldRune cm o ho g d (ws2 ++ ',' :: (t ++ ']' :: rest)) hd
    obtain ⟨r, hr1⟩ := encObject_brace ho
    have hsk : skipSpace (ws1 ++ o ++ ws2 ++ ',' :: t ++ ']' :: rest) =
        o ++ (ws2 ++ ',' :: (t ++ ']' :: rest)) := by
      rw [hr1]
      simp only [List.append_assoc, List.cons_append]
      exact skipSpace_ws_cons ws1 '\x7b' _ h1 (by decide)
    obtain ⟨vs, hvs1, hvs2⟩ := ih (g + 4) d rest (by simp at hf ⊢; omega) hd
    refine ⟨v :: vs, ?_, by simp [hv2, hvs2]⟩
    rw [hsk]
    exact parseElements_more (g + 4) d _ _ _ _ v vs hv1
      (skipSpace_ws_cons ws2 ',' _ h2 (by decide)) hvs1

theorem Unmarshal_enc (foldRune : Char → Char) (cms : List CommitMessage) (s : String)
    (h : EncDocument cms s) : Unmarshal foldRune s = Except.ok cms := by
  obtain ⟨ws1, a, ws2, h1, ha, h2, hs⟩ := h
  have c1 : ('[' : Char) ≠ '"' := by decide
  have hd1 : ¬ (0 ≥ maxNestingDepth) := by decide
  rcases ha with ⟨rfl, ws, hws, rfl⟩ | ⟨els, hels, rfl⟩
  · have hsk : skipSpace s.data = '[' :: (ws ++ ']' :: ws2) := by
      rw [hs]
      simp only [List.append_assoc, List.cons_append, List.nil_append]
      exact skipSpace_ws_cons ws1 '[' _ h1 (by decide)
    have hp : parseJSON s.data = some (JValue.arr []) := by
      unfold parseJSON
      rw [hsk]
      simp only [parseValue, c1, if_false, if_true, hd1,
        skipSpace_ws_cons ws ']' ws2 hws (by decide), skipSpace_ws ws2 h2]
    simp [Unmarshal, hp, decodeSlice]
  · have hsk : skipSpace s.data = '[' :: (els ++ ']' :: ws2) := by
      rw [hs]
      simp only [List.append_assoc, List.cons_append, List.nil_append]
      exact skipSpace_ws_cons ws1 '[' _ h1 (by decide)
    have hlen : cms.length + 4 ≤ 2 * s.data.length + 1 := by
      have := encElements_length_le hels
      rw [hs]
      simp
      omega
    obtain ⟨vs, hvs1, hvs2⟩ :=
      parseElements_enc foldRune cms els hels (2 * s.data.length + 1) 1 ws2 hlen (by decide)
    obtain ⟨r, hr⟩ := encElements_skip hels (']' :: ws2)
    have c2 : ('\x7b' : Char) ≠ ']' := by decide
    have hp : parseJSON s.data = some (JValue.arr vs) := by
      unfold parseJSON
      rw [hsk]
      rw [hr] at hvs1
      simp only [parseValue, c1, if_false, if_true, hd1, hr, c2, hvs1, skipSpace_ws ws2 h2]
    have hfst : (vs.map (decodeElement foldRune)).map Prod.fst = cms := by
      rw [hvs2, List.map_map]
      exact List.map_id cms
    have hsnd : (vs.map (decodeElement foldRune)).any Prod.snd = false := by
      rw [hvs2]
      simp
    simp only [Unmarshal, hp, decodeSlice, hfst, hsnd]

theorem run_reaches_select (foldRune : Char → Char) (w : World)
    (gate stat diff log out : String) (cms : List CommitMessage)
    (h : AgentOk w gate stat diff log out) (hd : Unmarshal foldRune out = Except.ok cms)
    (hne : cms ≠ []) :
    ∃ rest, (runMain foldRune w).2 =
      uptoAgent gate stat diff log out none ++
        Event.select cms (w.selectRun (uptoAgent gate stat diff log out none) cms).1
          (w.selectRun (uptoAgent gate stat diff log out none) cms).2 :: rest := by
  have hs := runMain_shape foldRune w
  generalize runMain foldRune w = r at hs ⊢
  obtain ⟨st, tr⟩ := r
  cases hs
  all_goals simp only [SelectOk, AgentOk, LogOk, DiffOk, StatOk, GateOk] at *
  all_goals try casesm* _ ∧ _
  all_goals simp_all [uptoAgent, beforeAgent, statEvent, diffEvent, logEvent, agentEvent]

theorem encChars_ofPlain (s : List Char)
    (h : ∀ c ∈ s, c ≠ '"' ∧ c ≠ '\\' ∧ 0x20 ≤ c.toNat) : EncChars s s := by
  induction s with
  | nil => exact EncChars.nil
  | cons c s ih =>
    have hc := h c (List.mem_cons_self _ _)
    exact EncChars.cons c [c] s s (EncChar.plain c hc.1 hc.2.1 hc.2.2)
      (ih fun x hx => h x (List.mem_cons_of_mem _ hx))

/-! ## C3: the round trip of the response parser -/

/-- C3. For every `N ≥ 1`, every list of `N` commit messages and every JSON
text that encodes it (an array of objects with the string fields `title` and
`description`, with any white space between tokens and any JSON spelling of
the characters), `json.Unmarshal` returns exactly that list: `N` values, in
order, with titles and descriptions unchanged; and in a run whose agent
answered with this text the menu is offered exactly that list. -/
theorem response_round_trip (foldRune : Char → Char) (N : Nat) (cms : List CommitMessage)
    (s : String) (hN : 1 ≤ N) (hlen : cms.length = N) (h : EncDocument cms s) :
    Unmarshal foldRune s = Except.ok cms ∧
    (∀ w gate stat diff log, AgentOk w gate stat diff log s →
      ∃ idx err, Event.select cms idx err ∈ (runMain foldRune w).2) := by
  have hd := Unmarshal_enc foldRune cms s h
  refine ⟨hd, ?_⟩
  intro w gate stat diff log ha
  have hne : cms ≠ [] := by
    intro h0
    rw [h0] at hlen
    simp at hlen
    omega
  obtain ⟨rest, hr⟩ := run_reaches_select foldRune w gate stat diff log s cms ha hd hne
  exact ⟨_, _, by rw [hr]; exact List.mem_append_right _ (List.mem_cons_self _ _)⟩

/-- C3 at a text with white space between the tokens and an escaped line
feed in the title. -/
theorem response_round_trip_witness :
    Unmarshal id " [ \x7b\"title\": \"fix: a\\n\",\n\t\"description\" :\"b c\"\x7d ]\n" =
      Except.ok [⟨"fix: a\n", "b c"⟩] :=
  (response_round_trip id 1 [⟨"fix: a\n", "b c"⟩]
    " [ \x7b\"title\": \"fix: a\\n\",\n\t\"description\" :\"b c\"\x7d ]\n" (Nat.le_refl 1) rfl
    ⟨[' '], "[ \x7b\"title\": \"fix: a\\n\",\n\t\"description\" :\"b c\"\x7d ]".data, ['\n'],
      by decide,
      Or.inr ⟨" \x7b\"title\": \"fix: a\\n\",\n\t\"description\" :\"b c\"\x7d ".data,
        EncElements.one _ [' '] "\x7b\"title\": \"fix: a\\n\",\n\t\"description\" :\"b c\"\x7d".data
          [' '] (by decide)
          ⟨[], "\"title\": \"fix: a\\n\",\n\t\"description\" :\"b c\"".data, by decide,
            Or.inl (EncMembers.more "title" "fix: a\n" [("description", "b c")]
              "\"title\": \"fix: a\\n\"".data [] ['\n', '\t'] "\"description\" :\"b c\"".data
              ⟨"\"title\"".data, [], [' '], "\"fix: a\\n\"".data,
                ⟨"title".data, encChars_ofPlain _ (by decide), rfl⟩, by decide, by decide,
                ⟨"fix: a\\n".data,
                  EncChars.cons 'f' ['f'] _ _ (EncChar.plain _ (by decide) (by decide) (by decide))
                  (EncChars.cons 'i' ['i'] _ _ (EncChar.plain _ (by decide) (by decide) (by decide))
                  (EncChars.cons 'x' ['x'] _ _ (EncChar.plain _ (by decide) (by decide) (by decide))
                  (EncChars.cons ':' [':'] _ _ (EncChar.plain _ (by decide) (by decide) (by decide))
                  (EncChars.cons ' ' [' '] _ _ (EncChar.plain _ (by decide) (by decide) (by decide))
                  (EncChars.cons 'a' ['a'] _ _ (EncChar.plain _ (by decide) (by decide) (by decide))
                  (EncChars.cons '\n' ['\\', 'n'] _ _ EncChar.lineFeed EncChars.nil)))))),
                  rfl⟩, rfl⟩
              (by decide) (by decide)
              (EncMembers.one "description" "b c" "\"description\" :\"b c\"".data []
                ⟨"\"description\"".data, [' '], [], "\"b c\"".data,
                  ⟨"description".data, encChars_ofPlain _ (by decide), rfl⟩, by decide,
                  by decide, ⟨"b c".data, encChars_ofPlain _ (by decide), rfl⟩, rfl⟩
                (by decide))),
            rfl⟩
          (by decide),
        rfl⟩,
      by decide, rfl⟩).1

/-! ## C10: the candidate list offered to the menu -/

/-- C10, as stated, fails: an agent output whose only object has no title
decodes to a candidate with the empty title, and the run offers it to the
menu. -/
theorem untitled_candidate_counterexample :
    Unmarshal id "[\x7b\"description\":\"only a body\"\x7d]" =
      Except.ok [⟨"", "only a body"⟩] ∧
    (⟨"", "only a body"⟩ : CommitMessage).Title = "" ∧
    ∃ rest, (runMain id untitledAnswerWorld).2 =
      uptoAgent "diff --cached --stat" "diff --cached --stat" "diff --cached"
        "log -n 5 --pretty=oneline --abbrev-commit"
        "[\x7b\"description\":\"only a body\"\x7d]" none ++
      Event.select [⟨"", "only a body"⟩] 0 none :: rest :=
  ⟨rfl, rfl,
    run_reaches_select id untitledAnswerWorld "diff --cached --stat" "diff --cached --stat"
      "diff --cached" "log -n 5 --pretty=oneline --abbrev-commit"
      "[\x7b\"description\":\"only a body\"\x7d]" [⟨"", "only a body"⟩]
      ⟨⟨⟨⟨⟨by decide, by decide⟩, by decide⟩, by decide⟩, by decide⟩, by decide⟩ rfl
      (by decide)⟩

/-- C10, amended. Whenever the menu runs, the list it is given is non-empty
and is exactly the list decoded from the output of a successful agent call;
nothing requires a title, and an object without one gives the empty title. -/
theorem candidate_list_invariant (foldRune : Char → Char) (w : World)
    (items : List CommitMessage) (idx : Nat) (err : Option String)
    (h : Event.select items idx err ∈ (runMain foldRune w).2) :
    items ≠ [] ∧
    (∃ args out, Event.exec "opencode" args out none ∈ (runMain foldRune w).2 ∧
      Unmarshal foldRune out = Except.ok items) ∧
    Unmarshal foldRune "[\x7b\x7d]" = Except.ok [⟨"", ""⟩] := by
  refine ⟨?_, ?_, rfl⟩
  · have hs := runMain_shape foldRune w
    generalize runMain foldRune w = r at hs h
    obtain ⟨st, tr⟩ := r
    cases hs
    all_goals simp only [SelectOk, AgentOk, LogOk, DiffOk, StatOk, GateOk] at *
    all_goals try casesm* _ ∧ _
    all_goals simp_all [uptoAgent, beforeAgent, statEvent, diffEvent, logEvent, agentEvent,
      noStagedChangesLine, jsonErrorLine, noCommitMessagesLine, commitEvent]
  · have hs := runMain_shape foldRune w
    generalize runMain foldRune w = r at hs h ⊢
    obtain ⟨st, tr⟩ := r
    cases hs
    all_goals simp only [SelectOk, AgentOk, LogOk, DiffOk, StatOk, GateOk] at *
    all_goals try casesm* _ ∧ _
    all_goals simp_all [uptoAgent, beforeAgent, statEvent, diffEvent, logEvent, agentEvent,
      noStagedChangesLine, jsonErrorLine, noCommitMessagesLine, commitEvent]
    all_goals exact ⟨_, _, ⟨rfl, rfl⟩, by assumption⟩

/-- C10, amended, at the example world, whose menu is offered one candidate. -/
theorem candidate_list_invariant_witness :
    ([⟨"feat: add X", "Implements X."⟩] : List CommitMessage) ≠ [] :=
  (candidate_list_invariant id demoWorld [⟨"feat: add X", "Implements X."⟩] 0 none (by
    obtain ⟨rest, hr⟩ := run_reaches_select id demoWorld "diff --cached --stat"
      "diff --cached --stat" "diff --cached" "log -n 5 --pretty=oneline --abbrev-commit"
      "[\x7b\"title\":\"feat: add X\",\"description\":\"Implements X.\"\x7d]"
      [⟨"feat: add X", "Implements X."⟩]
      ⟨⟨⟨⟨⟨by decide, by decide⟩, by decide⟩, by decide⟩, by decide⟩, by decide⟩ rfl
      (by decide)
    rw [hr]
    exact List.mem_append_right _ (List.mem_cons_self _ _))).1

end LazyCommit
